import Mathlib

/-!
# Paged first-fit memory manager (`mem_manager.cpp`)

A shallow embedding of the allocator of `mem_manager.cpp` (`Process`, `MemoryBlock`,
`MemoryManager` with `allocate`, `release`, `mergeFreeBlocks`) and of the driver
`simulate` from its main loop on, and theorems about them.

Modelling conventions.

* C++ `int` values are mathematical integers (`Int`); `/` on `int` is truncating division
  (`Int.tdiv`). Signed overflow is undefined in C++ and is outside the model.
* `std::vector<MemoryBlock>` is a `List MemoryBlock`; the position in the list is the
  storage index of the vector.
* The vector's `capacity()` is part of the manager's state. In `allocate` and `release`
  the loop variable `auto& block` denotes the element at the current storage index as
  long as the vector's buffer is the same. When the `emplace_back` of line 52 finds
  `size() == capacity()` the vector moves to a new buffer of twice the size (the growth
  of libstdc++), `block` keeps pointing into the released buffer, and the assignment of
  line 54 through it does not reach the vector: the slot keeps the size it had.
* Member functions that mutate `*this` or a reference argument return the new values.
* Loops whose number of passes is not the length of a list take a `fuel` argument; that
  the fuel given is enough is proved (`mergeLoopExit_append`, `mainLoop_exit`,
  `mainLoop_fuel`).
-/

namespace MemManager

/-- The `struct Process` of the source; the three last fields carry the default member
initialisers `-1`, `-1` and `false`. -/
structure Process where
  id : Int
  arrivalTime : Int
  lifetime : Int
  totalMemory : Int
  memoryPieces : List Int
  startTime : Int := -1
  completionTime : Int := -1
  admitted : Bool := false
  deriving DecidableEq, Repr

/-- The `struct MemoryBlock` of the source. -/
structure MemoryBlock where
  start : Int
  size : Int
  free : Bool
  deriving DecidableEq, Repr

/-- The data members of `class MemoryManager`, with the `capacity()` of the vector
`memoryMap` next to its elements. -/
structure MemoryManager where
  memorySize : Int
  pageSize : Int
  memoryMap : List MemoryBlock
  capacity : Nat
  deriving DecidableEq, Repr

/-- The constructor `MemoryManager(memorySize, pageSize)`: one free block covering the
whole memory, put by `emplace_back` into an empty vector, whose capacity becomes 1. -/
def MemoryManager.new (memorySize pageSize : Int) : MemoryManager :=
  { memorySize := memorySize, pageSize := pageSize,
    memoryMap := [MemoryBlock.mk 0 memorySize true], capacity := 1 }

/-- The local `numPages` of `allocate`: `(process.totalMemory + pageSize - 1) / pageSize`. -/
def numPages (mm : MemoryManager) (process : Process) : Int :=
  (process.totalMemory + mm.pageSize - 1).tdiv mm.pageSize

/-- The expression `numPages * pageSize` that `allocate` compares block sizes with. -/
def requiredBytes (mm : MemoryManager) (process : Process) : Int :=
  numPages mm process * mm.pageSize

/-- What a call of `allocate` leaves behind: the returned `bool`, the manager and the
process that was passed by reference. -/
structure AllocateResult where
  result : Bool
  self : MemoryManager
  process : Process
  deriving DecidableEq, Repr

/-- Whether the `emplace_back` of line 52 runs for the matched block and has to move the
vector to a new buffer: the block is larger than required and `size() == capacity()`. -/
def reallocates (mm : MemoryManager) (process : Process) (block : MemoryBlock) : Bool :=
  decide (block.size > requiredBytes mm process) &&
    decide (mm.memoryMap.length = mm.capacity)

/-- The body of the `if` in `allocate`, run for the block `block` found at storage index
`i`: lines 45 to 56 of the source, statement by statement. After a reallocation by
`emplace_back` the reference `block` is dangling and the assignment of line 54 leaves the
vector as it is. -/
def allocateAt (mm : MemoryManager) (process : Process) (i : Nat) (block : MemoryBlock) :
    AllocateResult :=
  let req := requiredBytes mm process
  -- block.free = false;
  let block1 : MemoryBlock := { block with free := false }
  let map1 := mm.memoryMap.set i block1
  -- process.admitted = true; process.startTime = block.start;
  let process1 : Process := { process with admitted := true, startTime := block1.start }
  -- process.completionTime = process.startTime + process.lifetime;
  let process2 : Process :=
    { process1 with completionTime := process1.startTime + process1.lifetime }
  -- if (block.size > numPages * pageSize) memoryMap.emplace_back(...);
  let map2 :=
    if block1.size > req then
      map1 ++ [MemoryBlock.mk (block1.start + req) (block1.size - req) true]
    else map1
  let capacity2 :=
    if reallocates mm process block then mm.memoryMap.length + max mm.memoryMap.length 1
    else mm.capacity
  -- block.size = numPages * pageSize;
  let map3 :=
    if reallocates mm process block then map2
    else map2.set i { block1 with size := req }
  { result := true, self := { mm with memoryMap := map3, capacity := capacity2 },
    process := process2 }

/-- The range-for loop of `allocate`, at storage index `i` with the blocks from `i` on
still to visit. -/
def allocateScan (mm : MemoryManager) (process : Process) :
    Nat → List MemoryBlock → AllocateResult
  | _, [] => { result := false, self := mm, process := process }
  | i, block :: rest =>
    if block.free && decide (block.size ≥ requiredBytes mm process) then
      allocateAt mm process i block
    else allocateScan mm process (i + 1) rest

/-- The member function `MemoryManager::allocate`. -/
def allocate (mm : MemoryManager) (process : Process) : AllocateResult :=
  allocateScan mm process 0 mm.memoryMap

/-- The loop of `mergeFreeBlocks` at index `i`. A merge step ends with `--i` followed by
the loop's `++i`, so the index is unchanged (at `i = 0` the `size_t` wraps around and
back). The `fuel` bounds the number of iterations. The loop condition
`i < memoryMap.size() - 1` is written `i + 1 < length`, which is the same for the
non-empty vectors the class holds. -/
def mergeLoop : Nat → Nat → List MemoryBlock → List MemoryBlock
  | 0, _, m => m
  | fuel + 1, i, m =>
    if h : i + 1 < m.length then
      if m[i].free && m[i + 1].free then
        mergeLoop fuel i
          ((m.set i { m[i] with size := m[i].size + m[i + 1].size }).eraseIdx (i + 1))
      else mergeLoop fuel (i + 1) m
    else m

/-- The member function `MemoryManager::mergeFreeBlocks`. Every iteration either removes
an element or advances `i`, so `length` iterations are enough. -/
def mergeFreeBlocks (mm : MemoryManager) : MemoryManager :=
  { mm with memoryMap := mergeLoop mm.memoryMap.length 0 mm.memoryMap }

/-- The range-for loop of `release`, at storage index `i` with the blocks from `i` on
still to visit. -/
def releaseScan (mm : MemoryManager) (process : Process) :
    Nat → List MemoryBlock → MemoryManager
  | _, [] => mm
  | i, block :: rest =>
    if block.start = process.startTime then
      mergeFreeBlocks { mm with memoryMap := mm.memoryMap.set i { block with free := true } }
    else releaseScan mm process (i + 1) rest

/-- The member function `MemoryManager::release`. -/
def release (mm : MemoryManager) (process : Process) : MemoryManager :=
  releaseScan mm process 0 mm.memoryMap

/-- The process record that `simulate` builds from one input entry (lines 114 to 126):
`totalMemory` starts at `0` and accumulates the piece sizes; the other fields keep their
default initialisers. -/
def Process.ofInput (id arrivalTime lifetime : Int) (memoryPieces : List Int) : Process :=
  { id := id, arrivalTime := arrivalTime, lifetime := lifetime,
    totalMemory := memoryPieces.foldl (fun total size => total + size) 0,
    memoryPieces := memoryPieces }

/-! ## Vocabulary of the properties -/

/-- The test of `allocate` on one block: `block.free && block.size >= numPages * pageSize`. -/
def fits (mm : MemoryManager) (process : Process) (block : MemoryBlock) : Bool :=
  block.free && decide (block.size ≥ requiredBytes mm process)

/-- Total number of bytes in the free blocks of a block list. -/
def freeBytes (m : List MemoryBlock) : Int :=
  ((m.filter (fun b => b.free)).map (fun b => b.size)).sum

/-- The blocks of a list in address order (sorted by start offset). -/
def sortedByStart (m : List MemoryBlock) : List MemoryBlock :=
  m.insertionSort (fun a b => a.start ≤ b.start)

/-- A list of blocks, read in the given order, tiles `[lo, hi)`: the first block starts at
`lo`, every block starts where the one before it ends, the last one ends at `hi`. -/
def tilesFrom : Int → Int → List MemoryBlock → Bool
  | _, _, [] => false
  | lo, hi, [b] => decide (b.start = lo) && decide (b.start + b.size = hi)
  | lo, hi, b :: c :: rest => decide (b.start = lo) && tilesFrom (b.start + b.size) hi (c :: rest)

/-- The partition invariant: the blocks in address order tile `[0, memorySize)`. -/
def partitioned (mm : MemoryManager) : Bool :=
  tilesFrom 0 mm.memorySize (sortedByStart mm.memoryMap)

/-- No two neighbours of the list are both free. -/
def noAdjacentFree : List MemoryBlock → Bool
  | b :: c :: rest => !(b.free && c.free) && noAdjacentFree (c :: rest)
  | _ => true

/-- The allocator states reachable from `MemoryManager(memorySize, pageSize)` by calls of
`allocate` and `release` on processes with positive `totalMemory`. -/
inductive Reachable (memorySize pageSize : Int) : MemoryManager → Prop
  | init : Reachable memorySize pageSize (MemoryManager.new memorySize pageSize)
  | afterAllocate (mm : MemoryManager) (p : Process) :
      Reachable memorySize pageSize mm → 0 < p.totalMemory →
      Reachable memorySize pageSize (allocate mm p).self
  | afterRelease (mm : MemoryManager) (p : Process) :
      Reachable memorySize pageSize mm → 0 < p.totalMemory →
      Reachable memorySize pageSize (release mm p)

/-- The coalescing loop as a recursion over the list: `b` is the entry at the current
index, the argument list the entries after it. Used to reason about `mergeLoop`. -/
def mergeInto (b : MemoryBlock) : List MemoryBlock → List MemoryBlock
  | [] => [b]
  | c :: rest =>
    if b.free && c.free then mergeInto { b with size := b.size + c.size } rest
    else b :: mergeInto c rest

/-! ## A call sequence that fragments the storage order

Memory of 2000 bytes, pages of 100 bytes. Processes 1 and 2 ask for 300 bytes each,
process 1 leaves, process 3 takes 100 bytes out of the free block at offset 0: the
remainder of that block is appended behind the last block of the vector. -/

/-- After `allocate` of process 1 (300 bytes) on the initial state. -/
def frag1 : AllocateResult :=
  allocate (MemoryManager.new 2000 100) (Process.ofInput 1 0 5 [300])

/-- After `allocate` of process 2 (300 bytes). -/
def frag2 : AllocateResult := allocate frag1.self (Process.ofInput 2 0 5 [300])

/-- After `release` of process 1. -/
def frag3 : MemoryManager := release frag2.self frag1.process

/-- After `allocate` of process 3 (100 bytes): storage order is no longer address order. -/
def frag4 : AllocateResult := allocate frag3 (Process.ofInput 3 0 5 [100])

/-- After `release` of process 3. -/
def frag5 : MemoryManager := release frag4.self frag4.process

/-- From `frag4`: after `allocate` of process 4 (1400 bytes). -/
def adj5 : AllocateResult := allocate frag4.self (Process.ofInput 4 0 5 [1400])

/-- Then `release` of process 3. -/
def adj6 : MemoryManager := release adj5.self frag4.process

/-- From `frag4`: after `allocate` of process 4 (100 bytes). -/
def ovl5 : AllocateResult := allocate frag4.self (Process.ofInput 4 0 5 [100])

/-- Then `release` of process 3. -/
def ovl6 : MemoryManager := release ovl5.self frag4.process

/-- Then `allocate` of process 5 (200 bytes). -/
def ovl7 : AllocateResult := allocate ovl6 (Process.ofInput 5 0 5 [200])

/-- Then `allocate` of process 6 (1300 bytes). -/
def ovl8 : AllocateResult := allocate ovl7.self (Process.ofInput 6 0 5 [1300])

/-- Then `release` of process 6, immediately after its `allocate`. -/
def ovl9 : MemoryManager := release ovl8.self ovl8.process

/-! ## The simulation driver (`simulate`)

The file reading of lines 107 to 129 is left out: `simulate` starts from the queue of
process records, `numProcesses` being its length. The output file is the list of events
written to it, in order; an event keeps the whole process record of which the printed
line shows the `id`, and a dump of `printMemoryMap` is the block list it prints. -/

/-- One entry of the output file. -/
inductive Event where
  | arrives (clock : Int) (process : Process)
  | admitted (clock : Int) (process : Process) (memoryMap : List MemoryBlock)
  | waiting (clock : Int) (process : Process)
  | completes (clock : Int) (process : Process) (memoryMap : List MemoryBlock)
  deriving DecidableEq, Repr

/-- The local variables of `simulate` that the main loop reads and writes. The `double`
`totalTurnaroundTime` only ever holds sums of `int` differences and is kept as an
integer. -/
structure SimState where
  inputQueue : List Process
  completedProcesses : List Process
  memoryManager : MemoryManager
  clock : Int
  totalTurnaroundTime : Int
  log : List Event
  deriving DecidableEq, Repr

/-- The body of the inner `while` (lines 138 to 148) for the process `front` popped from
the queue, whose remaining content is `rest`: the arrival is logged, the process offered
to `allocate`, and it is either admitted (logged with a dump of the memory map, and
pushed on `completedProcesses`) or logged as waiting. -/
def arrive (clock : Int) (front : Process) (rest : List Process) (s : SimState) : SimState :=
  let r := allocate s.memoryManager front
  let log1 := s.log ++ [Event.arrives clock front]
  if r.result then
    { s with
      inputQueue := rest
      memoryManager := r.self
      completedProcesses := s.completedProcesses ++ [r.process]
      log := log1 ++ [Event.admitted clock r.process r.self.memoryMap] }
  else
    { s with
      inputQueue := rest
      memoryManager := r.self
      log := log1 ++ [Event.waiting clock r.process] }

/-- The inner `while` of lines 137 to 149, with the list argument the current content of
`inputQueue`: as long as the front has `arrivalTime <= clock` it is popped and handled. -/
def processArrivals (clock : Int) : List Process → SimState → SimState
  | [], s => { s with inputQueue := [] }
  | front :: rest, s =>
    if front.arrivalTime ≤ clock then processArrivals clock rest (arrive clock front rest s)
    else { s with inputQueue := front :: rest }

/-- The body of the `if` in the completion loop (lines 154 to 158) for the element `it`,
which is erased from `completedProcesses`: the completion is logged, the process
released, the memory map dumped and the turnaround added up. -/
def complete (clock : Int) (it : Process) (s : SimState) : SimState :=
  let mm := release s.memoryManager it
  { s with
    memoryManager := mm
    log := s.log ++ [Event.completes clock it mm.memoryMap]
    totalTurnaroundTime := s.totalTurnaroundTime + (it.completionTime - it.arrivalTime) }

/-- The `for` loop of lines 152 to 162 over the elements of `completedProcesses` from the
iterator on; the state holds the elements already visited and kept. -/
def processCompletions (clock : Int) : List Process → SimState → SimState
  | [], s => s
  | it :: rest, s =>
    if it.completionTime = clock then processCompletions clock rest (complete clock it s)
    else
      processCompletions clock rest { s with completedProcesses := s.completedProcesses ++ [it] }

/-- One pass through the body of the outer `while` (lines 136 to 164): arrivals,
completions, `clock++`. -/
def tick (s : SimState) : SimState :=
  let s1 := processArrivals s.clock s.inputQueue s
  let s2 := processCompletions s1.clock s1.completedProcesses { s1 with completedProcesses := [] }
  { s2 with clock := s2.clock + 1 }

/-- The outer `while (!inputQueue.empty())` with its `if (clock > 100000) break;`. The
`fuel` bounds the number of passes. -/
def mainLoop : Nat → SimState → SimState
  | 0, s => s
  | fuel + 1, s =>
    if s.inputQueue.isEmpty then s
    else
      let s1 := tick s
      if s1.clock > 100000 then s1 else mainLoop fuel s1

/-- The state of `simulate` when the main loop is entered (lines 131 to 133). -/
def SimState.start (input : List Process) (memorySize pageSize : Int) : SimState :=
  { inputQueue := input, completedProcesses := [],
    memoryManager := MemoryManager.new memorySize pageSize,
    clock := 0, totalTurnaroundTime := 0, log := [] }

/-- The value of `avgTurnaroundTime` (line 169), the quotient taken in the rationals. -/
def avgTurnaroundTime (numProcesses : Int) (s : SimState) : ℚ :=
  if s.completedProcesses.isEmpty then 0
  else (s.totalTurnaroundTime : ℚ) / (numProcesses : ℚ)

/-- What a run of `simulate` produces: the state after the main loop and the average
written on the last line of the output. -/
structure SimReport where
  final : SimState
  avgTurnaroundTime : ℚ

/-- The function `simulate` from the main loop on. The clock starts at `0` and the loop
breaks once it exceeds `100000`, so `100001` passes are enough. -/
def simulate (input : List Process) (memorySize pageSize : Int) : SimReport :=
  let final := mainLoop 100001 (SimState.start input memorySize pageSize)
  { final := final, avgTurnaroundTime := avgTurnaroundTime input.length final }

/-! ## Reading the event log -/

/-- The arrivals of a log, in order: the clock tick and the process of each `arrives`
entry. Each of them stands for one pop of the queue and one call of `allocate`. -/
def arrivalsOf (log : List Event) : List (Int × Process) :=
  log.filterMap fun e =>
    match e with
    | Event.arrives clock process => some (clock, process)
    | _ => none

/-- The process records of the `admitted` entries of a log, in order. -/
def admittedOf (log : List Event) : List Process :=
  log.filterMap fun e =>
    match e with
    | Event.admitted _ process _ => some process
    | _ => none

/-- The process records of the `waiting` entries of a log, in order. -/
def waitingOf (log : List Event) : List Process :=
  log.filterMap fun e =>
    match e with
    | Event.waiting _ process => some process
    | _ => none

/-- The process records of the `completes` entries of a log, in order. Each of them
stands for one call of `release` and one addition to `totalTurnaroundTime`. -/
def completedOf (log : List Event) : List Process :=
  log.filterMap fun e =>
    match e with
    | Event.completes _ process _ => some process
    | _ => none

/-- Sum of `completionTime - arrivalTime` over a list of process records. -/
def turnaroundSum (l : List Process) : Int :=
  (l.map (fun p => p.completionTime - p.arrivalTime)).sum

/-- The average turnaround as the specification words it: the sum of
`completionTime - arrivalTime` over the processes that completed, divided by their
number, and `0` when no process completed. -/
def averageOverCompleted (log : List Event) : ℚ :=
  if (completedOf log).isEmpty then 0
  else (turnaroundSum (completedOf log) : ℚ) / ((completedOf log).length : ℚ)

/-! ## Runs of `simulate` used below -/

/-- Scenario A: memory 2000, page size 100, one process of 250 bytes arriving at 0 with
lifetime 5. -/
def scenarioA : SimReport := simulate [Process.ofInput 1 0 5 [250]] 2000 100

/-- Scenario B: memory 2000, page size 100, two processes of 1100 bytes arriving at 0. -/
def scenarioB : SimReport :=
  simulate [Process.ofInput 1 0 5 [1100], Process.ofInput 2 0 5 [1100]] 2000 100

/-- Two processes of 250 bytes and lifetime 5, arriving at 0 and at 10. -/
def twoArrivals : SimReport :=
  simulate [Process.ofInput 1 0 5 [250], Process.ofInput 2 10 5 [250]] 2000 100

/-- A process of 250 bytes arriving at 0 and one of 9000 bytes, which never fits,
arriving at 10. -/
def lateMisfit : SimReport :=
  simulate [Process.ofInput 1 0 5 [250], Process.ofInput 2 10 5 [9000]] 2000 100

/-- Two processes of 300 bytes and lifetime 5 arriving at 0, and a third arriving at 310
that keeps the main loop running until then. -/
def sideBySide : SimReport :=
  simulate [Process.ofInput 1 0 5 [300], Process.ofInput 2 0 5 [300],
    Process.ofInput 3 310 1 [100]] 2000 100

/-! ## Vocabulary for the coalescing pass and the byte counts -/

/-- The loop of `mergeFreeBlocks` once more, this time answering `none` when the fuel
runs out before the loop condition `i < memoryMap.size() - 1` fails. -/
def mergeLoopExit : Nat → Nat → List MemoryBlock → Option (List MemoryBlock)
  | 0, _, _ => none
  | fuel + 1, i, m =>
    if h : i + 1 < m.length then
      if m[i].free && m[i + 1].free then
        mergeLoopExit fuel i
          ((m.set i { m[i] with size := m[i].size + m[i + 1].size }).eraseIdx (i + 1))
      else mergeLoopExit fuel (i + 1) m
    else some m

/-- The result of a coalescing pass as the specification words it: every maximal run of
consecutive free entries is replaced by one free entry with the start of the run's first
entry and the sum of the run's sizes; allocated entries are kept as they are. -/
def coalesceRuns : List MemoryBlock → List MemoryBlock
  | [] => []
  | b :: rest =>
    if b.free then
      MemoryBlock.mk b.start
          (b.size + ((rest.takeWhile (fun c => c.free)).map (fun c => c.size)).sum) true ::
        coalesceRuns (rest.dropWhile (fun c => c.free))
    else b :: coalesceRuns rest
termination_by l => l.length
decreasing_by
  · simp only [List.length_cons]
    exact Nat.lt_succ_of_le (List.dropWhile_sublist _).length_le
  · simp

/-- Sum of the sizes of all blocks of a block list. -/
def totalBytes (m : List MemoryBlock) : Int :=
  (m.map (fun b => b.size)).sum

/-! ## Invariants of the main loop -/

/-- What the log of a run records about the queue and the in-flight set, for the input
queue `input`: the processes of the `arrives` entries followed by the queue are the
input; every `admitted` or `waiting` entry follows an arrival of the same `id`; a
`waiting` entry carries the input record; when the input `id`s are distinct no `id` is
both waiting and admitted; what completed or is in flight was admitted; and
`totalTurnaroundTime` is the sum over the `completes` entries. -/
structure LogInvariant (input : List Process) (s : SimState) : Prop where
  queue : (arrivalsOf s.log).map Prod.snd ++ s.inputQueue = input
  outcome : ∀ p ∈ admittedOf s.log ++ waitingOf s.log,
    p.id ∈ (arrivalsOf s.log).map (fun a => a.2.id)
  waitingInput : ∀ p ∈ waitingOf s.log, p ∈ (arrivalsOf s.log).map Prod.snd
  disjoint : (input.map (fun p => p.id)).Nodup →
    ∀ p ∈ waitingOf s.log, ∀ q ∈ admittedOf s.log, q.id ≠ p.id
  completed : ∀ q ∈ completedOf s.log, q ∈ admittedOf s.log
  inFlight : ∀ q ∈ s.completedProcesses, q ∈ admittedOf s.log
  total : s.totalTurnaroundTime = turnaroundSum (completedOf s.log)

/-- For an input sorted by arrival time: every arrival so far was logged at the tick
equal to the process's `arrivalTime`, the queue is the rest of the input, is sorted, and
nobody in it was due before the current clock. -/
structure ArrivalInvariant (input : List Process) (s : SimState) : Prop where
  logQueue : arrivalsOf s.log ++ s.inputQueue.map (fun p => (p.arrivalTime, p)) =
    input.map (fun p => (p.arrivalTime, p))
  ahead : ∀ p ∈ s.inputQueue, s.clock ≤ p.arrivalTime
  sorted : s.inputQueue.Pairwise (fun a b => a.arrivalTime ≤ b.arrivalTime)

/-- Bounds on the clock at the head of the main loop and on the arrivals logged so far. -/
structure ClockInvariant (s : SimState) : Prop where
  nonneg : 0 ≤ s.clock
  bound : s.clock ≤ 100000
  arrivals : ∀ a ∈ arrivalsOf s.log, a.2.arrivalTime ≤ a.1 ∧ 0 ≤ a.1 ∧ a.1 ≤ 100000

/-! ## Lemmas on the list operations and the loops -/

theorem set_length_append (pre : List MemoryBlock) (b x : MemoryBlock) (post : List MemoryBlock) :
    (pre ++ b :: post).set pre.length x = pre ++ x :: post := by
  induction pre with
  | nil => rfl
  | cons a pre ih => simp [List.set, ih]

theorem eraseIdx_length_succ_append (pre : List MemoryBlock) (b c : MemoryBlock)
    (post : List MemoryBlock) :
    (pre ++ b :: c :: post).eraseIdx (pre.length + 1) = pre ++ b :: post := by
  induction pre with
  | nil => rfl
  | cons a pre ih => simp [List.eraseIdx, ih]

theorem mergeLoop_append (fuel : Nat) :
    ∀ (pre : List MemoryBlock) (b : MemoryBlock) (rest : List MemoryBlock),
      rest.length ≤ fuel →
      mergeLoop fuel pre.length (pre ++ b :: rest) = pre ++ mergeInto b rest := by
  induction fuel with
  | zero =>
    intro pre b rest h
    have : rest = [] := List.length_eq_zero.mp (Nat.le_zero.mp h)
    subst this
    simp [mergeLoop, mergeInto]
  | succ fuel ih =>
    intro pre b rest h
    cases rest with
    | nil => simp [mergeLoop, mergeInto]
    | cons c rest =>
      have hlen : pre.length + 1 < (pre ++ b :: c :: rest).length := by simp
      have hb : (pre ++ b :: c :: rest)[pre.length]? = some b := by
        rw [List.getElem?_append_right (Nat.le_refl _)]; simp
      have hc : (pre ++ b :: c :: rest)[pre.length + 1]? = some c := by
        rw [List.getElem?_append_right (by omega)]; simp
      have hb' : (pre ++ b :: c :: rest)[pre.length] = b :=
        (List.getElem?_eq_some.mp hb).2
      have hc' : (pre ++ b :: c :: rest)[pre.length + 1] = c :=
        (List.getElem?_eq_some.mp hc).2
      rw [mergeLoop, dif_pos hlen, hb', hc']
      have h' : rest.length ≤ fuel := by simpa using h
      by_cases hf : (b.free && c.free) = true
      · rw [if_pos hf, set_length_append, eraseIdx_length_succ_append, ih pre _ rest h']
        simp [mergeInto, hf]
      · rw [if_neg hf]
        have h1 : pre ++ b :: c :: rest = (pre ++ [b]) ++ c :: rest := by simp
        have h2 : pre.length + 1 = (pre ++ [b]).length := by simp
        rw [h1, h2, ih (pre ++ [b]) c rest h']
        simp [mergeInto, hf]

theorem allocateScan_none (mm : MemoryManager) (p : Process) :
    ∀ (rest : List MemoryBlock) (i : Nat), (∀ c ∈ rest, fits mm p c = false) →
      allocateScan mm p i rest = { result := false, self := mm, process := p } := by
  intro rest
  induction rest with
  | nil => intro i _; rfl
  | cons c rest ih =>
    intro i h
    have hc : (c.free && decide (c.size ≥ requiredBytes mm p)) = false :=
      h c (List.mem_cons_self _ _)
    rw [allocateScan, hc]
    exact ih (i + 1) (fun d hd => h d (List.mem_cons_of_mem _ hd))

theorem allocateScan_first (mm : MemoryManager) (p : Process) (b : MemoryBlock)
    (post : List MemoryBlock) (hb : fits mm p b = true) :
    ∀ (pre : List MemoryBlock) (i : Nat), (∀ c ∈ pre, fits mm p c = false) →
      allocateScan mm p i (pre ++ b :: post) = allocateAt mm p (i + pre.length) b := by
  intro pre
  induction pre with
  | nil =>
    intro i _
    have hb' : (b.free && decide (b.size ≥ requiredBytes mm p)) = true := hb
    simp only [List.nil_append, allocateScan, hb', if_true, List.length_nil, Nat.add_zero]
  | cons c pre ih =>
    intro i h
    have hc : (c.free && decide (c.size ≥ requiredBytes mm p)) = false :=
      h c (List.mem_cons_self _ _)
    rw [List.cons_append, allocateScan, hc]
    rw [if_neg (by simp), ih (i + 1) (fun d hd => h d (List.mem_cons_of_mem _ hd))]
    simp only [List.length_cons]
    congr 1
    omega

theorem first_fit_split (mm : MemoryManager) (p : Process) :
    ∀ l : List MemoryBlock, (∀ c ∈ l, fits mm p c = false) ∨
      ∃ pre b post, l = pre ++ b :: post ∧ (∀ c ∈ pre, fits mm p c = false) ∧
        fits mm p b = true := by
  intro l
  induction l with
  | nil => left; intro c hc; cases hc
  | cons a l ih =>
    by_cases ha : fits mm p a = true
    · right
      exact ⟨[], a, l, rfl, fun c hc => absurd hc (List.not_mem_nil c), ha⟩
    · have ha' : fits mm p a = false := by simpa using ha
      rcases ih with h | ⟨pre, b, post, hl, hpre, hb⟩
      · left
        intro c hc
        rcases List.mem_cons.mp hc with rfl | hc
        · exact ha'
        · exact h c hc
      · right
        refine ⟨a :: pre, b, post, by rw [hl]; rfl, ?_, hb⟩
        intro c hc
        rcases List.mem_cons.mp hc with rfl | hc
        · exact ha'
        · exact hpre c hc

theorem allocateAt_memoryMap (mm : MemoryManager) (p : Process) (pre : List MemoryBlock)
    (b : MemoryBlock) (post : List MemoryBlock) (h : mm.memoryMap = pre ++ b :: post) :
    (allocateAt mm p pre.length b).self.memoryMap =
      pre ++ MemoryBlock.mk b.start
          (if reallocates mm p b then b.size else requiredBytes mm p) false ::
        (post ++ if b.size > requiredBytes mm p then
          [MemoryBlock.mk (b.start + requiredBytes mm p) (b.size - requiredBytes mm p) true]
          else []) := by
  simp only [allocateAt, h, set_length_append]
  by_cases hr : reallocates mm p b = true
  · have hgt : b.size > requiredBytes mm p := by
      simp only [reallocates, Bool.and_eq_true, decide_eq_true_eq] at hr
      exact hr.1
    rw [if_pos hr, if_pos hr, if_pos hgt, if_pos hgt, List.append_assoc, List.cons_append]
  · rw [if_neg hr, if_neg hr]
    split_ifs with hgt
    · rw [List.append_assoc, List.cons_append, set_length_append]
    · rw [set_length_append, List.append_nil]

theorem allocate_of_split (mm : MemoryManager) (p : Process) (pre : List MemoryBlock)
    (b : MemoryBlock) (post : List MemoryBlock) (h : mm.memoryMap = pre ++ b :: post)
    (hpre : ∀ c ∈ pre, fits mm p c = false) (hb : fits mm p b = true) :
    allocate mm p = allocateAt mm p pre.length b := by
  rw [allocate, h, allocateScan_first mm p b post hb pre 0 hpre, Nat.zero_add]

theorem numPages_bounds (mm : MemoryManager) (p : Process) (hs : 0 < mm.pageSize)
    (hm : 0 < p.totalMemory) :
    p.totalMemory ≤ requiredBytes mm p ∧ requiredBytes mm p < p.totalMemory + mm.pageSize := by
  unfold requiredBytes numPages
  rw [Int.tdiv_eq_ediv (by omega) (le_of_lt hs)]
  have h1 := Int.ediv_add_emod (p.totalMemory + mm.pageSize - 1) mm.pageSize
  have h2 := Int.emod_nonneg (p.totalMemory + mm.pageSize - 1) (ne_of_gt hs)
  have h3 := Int.emod_lt_of_pos (p.totalMemory + mm.pageSize - 1) hs
  have h4 : (p.totalMemory + mm.pageSize - 1) / mm.pageSize * mm.pageSize =
      mm.pageSize * ((p.totalMemory + mm.pageSize - 1) / mm.pageSize) := Int.mul_comm _ _
  constructor <;> omega

theorem requiredBytes_eq_ceil (mm : MemoryManager) (p : Process) (hs : 0 < mm.pageSize)
    (hm : 0 < p.totalMemory) :
    requiredBytes mm p = ⌈(p.totalMemory : ℚ) / (mm.pageSize : ℚ)⌉ * mm.pageSize := by
  have hb := numPages_bounds mm p hs hm
  have hq : (0 : ℚ) < (mm.pageSize : ℚ) := by exact_mod_cast hs
  have hc : ⌈(p.totalMemory : ℚ) / (mm.pageSize : ℚ)⌉ = numPages mm p := by
    rw [Int.ceil_eq_iff]
    unfold requiredBytes at hb
    constructor
    · rw [lt_div_iff₀ hq]
      have : (numPages mm p - 1) * mm.pageSize < p.totalMemory := by linarith [hb.2]
      exact_mod_cast this
    · rw [div_le_iff₀ hq]
      exact_mod_cast hb.1
  rw [hc, requiredBytes]

theorem fits_iff (mm : MemoryManager) (p : Process) (b : MemoryBlock) :
    fits mm p b = true ↔ b.free = true ∧ requiredBytes mm p ≤ b.size := by
  simp [fits]

theorem fits_eq_false_iff (mm : MemoryManager) (p : Process) (b : MemoryBlock) :
    fits mm p b = false ↔ ¬ (b.free = true ∧ requiredBytes mm p ≤ b.size) := by
  rw [← fits_iff]; simp

theorem freeBytes_append (l₁ l₂ : List MemoryBlock) :
    freeBytes (l₁ ++ l₂) = freeBytes l₁ + freeBytes l₂ := by
  simp [freeBytes, List.filter_append, List.map_append, List.sum_append]

theorem freeBytes_nil : freeBytes [] = 0 := rfl

theorem freeBytes_cons (b : MemoryBlock) (l : List MemoryBlock) :
    freeBytes (b :: l) = (if b.free then b.size else 0) + freeBytes l := by
  cases hb : b.free <;> simp [freeBytes, List.filter_cons, hb]

theorem mergeFreeBlocks_cons (mm : MemoryManager) (b : MemoryBlock) (rest : List MemoryBlock)
    (h : mm.memoryMap = b :: rest) :
    mergeFreeBlocks mm = { mm with memoryMap := mergeInto b rest } := by
  have := mergeLoop_append (b :: rest).length [] b rest (by simp)
  simp only [List.length_nil, List.nil_append] at this
  rw [mergeFreeBlocks, h, this]

theorem releaseScan_none (mm : MemoryManager) (p : Process) :
    ∀ (rest : List MemoryBlock) (i : Nat), (∀ b ∈ rest, b.start ≠ p.startTime) →
      releaseScan mm p i rest = mm := by
  intro rest
  induction rest with
  | nil => intro i _; rfl
  | cons c rest ih =>
    intro i h
    rw [releaseScan, if_neg (h c (List.mem_cons_self _ _))]
    exact ih (i + 1) (fun d hd => h d (List.mem_cons_of_mem _ hd))

theorem allocate_cases (mm : MemoryManager) (p : Process) :
    ((∀ c ∈ mm.memoryMap, fits mm p c = false) ∧
        allocate mm p = { result := false, self := mm, process := p }) ∨
    ∃ pre b post, mm.memoryMap = pre ++ b :: post ∧ (∀ c ∈ pre, fits mm p c = false) ∧
      fits mm p b = true ∧ allocate mm p = allocateAt mm p pre.length b := by
  rcases first_fit_split mm p mm.memoryMap with h | ⟨pre, b, post, hl, hpre, hb⟩
  · exact Or.inl ⟨h, allocateScan_none mm p mm.memoryMap 0 h⟩
  · exact Or.inr ⟨pre, b, post, hl, hpre, hb, allocate_of_split mm p pre b post hl hpre hb⟩

theorem freeBytes_allocateAt (mm : MemoryManager) (p : Process) (pre : List MemoryBlock)
    (b : MemoryBlock) (post : List MemoryBlock) (h : mm.memoryMap = pre ++ b :: post)
    (hb : fits mm p b = true) :
    freeBytes (allocateAt mm p pre.length b).self.memoryMap =
      freeBytes mm.memoryMap - requiredBytes mm p := by
  obtain ⟨hfree, hle⟩ := (fits_iff mm p b).mp hb
  rw [allocateAt_memoryMap mm p pre b post h, h]
  by_cases hgt : b.size > requiredBytes mm p
  · rw [if_pos hgt]
    simp only [freeBytes_append, freeBytes_cons, freeBytes_nil, hfree, if_true,
      Bool.false_eq_true, if_false]
    omega
  · rw [if_neg hgt]
    have : b.size = requiredBytes mm p := le_antisymm (not_lt.mp hgt) hle
    simp only [freeBytes_append, freeBytes_cons, freeBytes_nil, hfree, if_true,
      Bool.false_eq_true, if_false]
    omega

theorem requiredBytes_least (mm : MemoryManager) (p : Process) (hs : 0 < mm.pageSize)
    (hm : 0 < p.totalMemory) (k : Int) (hk : p.totalMemory ≤ k * mm.pageSize) :
    requiredBytes mm p ≤ k * mm.pageSize := by
  have hbnd := numPages_bounds mm p hs hm
  have hlt : numPages mm p * mm.pageSize < (k + 1) * mm.pageSize := by
    have := hbnd.2
    unfold requiredBytes at this
    linarith
  have hq : numPages mm p < k + 1 := lt_of_mul_lt_mul_right hlt (le_of_lt hs)
  have hq' : numPages mm p ≤ k := by omega
  exact mul_le_mul_of_nonneg_right hq' (le_of_lt hs)

theorem requiredBytes_of_dvd (mm : MemoryManager) (p : Process) (hs : 0 < mm.pageSize)
    (hm : 0 < p.totalMemory) (hdvd : mm.pageSize ∣ p.totalMemory) :
    requiredBytes mm p = p.totalMemory := by
  obtain ⟨k, hk⟩ := hdvd
  have h1 := requiredBytes_least mm p hs hm k (by rw [hk, Int.mul_comm])
  have h2 := (numPages_bounds mm p hs hm).1
  rw [Int.mul_comm, ← hk] at h1
  exact le_antisymm h1 h2

/-! ## Lemmas on the coalescing pass and the byte counts -/

theorem mergeLoopExit_append (fuel : Nat) :
    ∀ (pre : List MemoryBlock) (b : MemoryBlock) (rest : List MemoryBlock),
      rest.length < fuel →
      mergeLoopExit fuel pre.length (pre ++ b :: rest) = some (pre ++ mergeInto b rest) := by
  induction fuel with
  | zero => intro pre b rest h; omega
  | succ fuel ih =>
    intro pre b rest h
    cases rest with
    | nil => simp [mergeLoopExit, mergeInto]
    | cons c rest =>
      have hlen : pre.length + 1 < (pre ++ b :: c :: rest).length := by simp
      have hb : (pre ++ b :: c :: rest)[pre.length]? = some b := by
        rw [List.getElem?_append_right (Nat.le_refl _)]; simp
      have hc : (pre ++ b :: c :: rest)[pre.length + 1]? = some c := by
        rw [List.getElem?_append_right (by omega)]; simp
      have hb' : (pre ++ b :: c :: rest)[pre.length] = b :=
        (List.getElem?_eq_some.mp hb).2
      have hc' : (pre ++ b :: c :: rest)[pre.length + 1] = c :=
        (List.getElem?_eq_some.mp hc).2
      rw [mergeLoopExit, dif_pos hlen, hb', hc']
      have h' : rest.length < fuel := by simpa using h
      by_cases hf : (b.free && c.free) = true
      · rw [if_pos hf, set_length_append, eraseIdx_length_succ_append, ih pre _ rest h']
        simp [mergeInto, hf]
      · rw [if_neg hf]
        have h1 : pre ++ b :: c :: rest = (pre ++ [b]) ++ c :: rest := by simp
        have h2 : pre.length + 1 = (pre ++ [b]).length := by simp
        rw [h1, h2, ih (pre ++ [b]) c rest h']
        simp [mergeInto, hf]

theorem coalesceRuns_cons_free (b : MemoryBlock) (rest : List MemoryBlock) (hb : b.free = true) :
    coalesceRuns (b :: rest) =
      MemoryBlock.mk b.start
          (b.size + ((rest.takeWhile (fun c => c.free)).map (fun c => c.size)).sum) true ::
        coalesceRuns (rest.dropWhile (fun c => c.free)) := by
  rw [coalesceRuns, if_pos hb]

theorem coalesceRuns_cons_allocated (b : MemoryBlock) (rest : List MemoryBlock)
    (hb : b.free = false) : coalesceRuns (b :: rest) = b :: coalesceRuns rest := by
  rw [coalesceRuns, if_neg (by simp [hb])]

theorem mergeInto_eq_coalesceRuns :
    ∀ (rest : List MemoryBlock) (b : MemoryBlock), mergeInto b rest = coalesceRuns (b :: rest) := by
  intro rest
  induction rest with
  | nil =>
    intro b
    cases hb : b.free
    · rw [coalesceRuns_cons_allocated b [] hb]; simp [mergeInto, coalesceRuns]
    · rw [coalesceRuns_cons_free b [] hb]
      cases b
      simp_all [mergeInto, coalesceRuns]
  | cons c rest ih =>
    intro b
    cases hb : b.free
    · rw [coalesceRuns_cons_allocated b _ hb, mergeInto, ← ih c]
      simp [hb]
    · cases hc : c.free
      · rw [coalesceRuns_cons_free b _ hb, mergeInto, ih c]
        cases b
        simp_all
      · have hb2 : ({ b with size := b.size + c.size } : MemoryBlock).free = true := hb
        rw [coalesceRuns_cons_free b _ hb, mergeInto, ih, coalesceRuns_cons_free _ rest hb2]
        simp [hb, hc, add_assoc]

theorem mergeInto_head_free (rest : List MemoryBlock) :
    ∀ b : MemoryBlock, ∃ h t, mergeInto b rest = h :: t ∧ h.free = b.free := by
  induction rest with
  | nil => intro b; exact ⟨b, [], rfl, rfl⟩
  | cons c rest ih =>
    intro b
    by_cases hf : (b.free && c.free) = true
    · obtain ⟨h, t, ht, hfree⟩ := ih { b with size := b.size + c.size }
      exact ⟨h, t, by rw [mergeInto, if_pos hf, ht], hfree⟩
    · exact ⟨b, mergeInto c rest, by rw [mergeInto, if_neg hf], rfl⟩

theorem noAdjacentFree_mergeInto (rest : List MemoryBlock) :
    ∀ b : MemoryBlock, noAdjacentFree (mergeInto b rest) = true := by
  induction rest with
  | nil => intro b; rfl
  | cons c rest ih =>
    intro b
    by_cases hf : (b.free && c.free) = true
    · rw [mergeInto, if_pos hf]; exact ih _
    · rw [mergeInto, if_neg hf]
      obtain ⟨h, t, ht, hfree⟩ := mergeInto_head_free rest c
      have := ih c
      rw [ht] at this ⊢
      simp only [noAdjacentFree, this, hfree, Bool.and_true]
      cases hbf : b.free <;> cases hcf : c.free <;> simp_all

theorem noAdjacentFree_index :
    ∀ (l : List MemoryBlock), noAdjacentFree l = true →
      ∀ (i : Nat) (b c : MemoryBlock), l[i]? = some b → l[i + 1]? = some c →
        ¬ (b.free = true ∧ c.free = true) := by
  intro l
  induction l with
  | nil => intro _ i b c hb; simp at hb
  | cons x l ih =>
    intro h i b c hb hc
    cases l with
    | nil => simp at hc
    | cons y l =>
      simp only [noAdjacentFree, Bool.and_eq_true] at h
      cases i with
      | zero =>
        simp only [List.getElem?_cons_zero, Option.some.injEq, zero_add,
          List.getElem?_cons_succ] at hb hc
        subst hb; subst hc
        intro hh
        simp [hh.1, hh.2] at h
      | succ i =>
        simp only [List.getElem?_cons_succ] at hb hc
        exact ih h.2 i b c (by simpa using hb) (by simpa using hc)

theorem mergeInto_allocated (rest : List MemoryBlock) :
    ∀ b : MemoryBlock, (mergeInto b rest).filter (fun c => !c.free) =
      (b :: rest).filter (fun c => !c.free) := by
  induction rest with
  | nil => intro b; rfl
  | cons c rest ih =>
    intro b
    by_cases hf : (b.free && c.free) = true
    · rw [mergeInto, if_pos hf, ih]
      simp only [Bool.and_eq_true] at hf
      simp [List.filter_cons, hf.1, hf.2]
    · rw [mergeInto, if_neg hf, List.filter_cons, ih]
      conv_rhs => rw [List.filter_cons]

theorem totalBytes_append (l₁ l₂ : List MemoryBlock) :
    totalBytes (l₁ ++ l₂) = totalBytes l₁ + totalBytes l₂ := by
  simp [totalBytes, List.map_append, List.sum_append]

theorem totalBytes_cons (b : MemoryBlock) (l : List MemoryBlock) :
    totalBytes (b :: l) = b.size + totalBytes l := by
  simp [totalBytes]

theorem totalBytes_nil : totalBytes [] = 0 := rfl

theorem totalBytes_mergeInto (rest : List MemoryBlock) :
    ∀ b : MemoryBlock, totalBytes (mergeInto b rest) = totalBytes (b :: rest) := by
  induction rest with
  | nil => intro b; rfl
  | cons c rest ih =>
    intro b
    by_cases hf : (b.free && c.free) = true
    · rw [mergeInto, if_pos hf, ih]
      simp only [totalBytes_cons]
      omega
    · rw [mergeInto, if_neg hf]
      simp only [totalBytes_cons, ih]

theorem freeBytes_mergeInto (rest : List MemoryBlock) :
    ∀ b : MemoryBlock, freeBytes (mergeInto b rest) = freeBytes (b :: rest) := by
  induction rest with
  | nil => intro b; rfl
  | cons c rest ih =>
    intro b
    by_cases hf : (b.free && c.free) = true
    · rw [mergeInto, if_pos hf, ih]
      simp only [Bool.and_eq_true] at hf
      simp only [freeBytes_cons, hf.1, hf.2, if_true]
      omega
    · rw [mergeInto, if_neg hf, freeBytes_cons, ih, freeBytes_cons, freeBytes_cons,
        freeBytes_cons]

theorem mergeFreeBlocks_nil (mm : MemoryManager) (h : mm.memoryMap = []) :
    mergeFreeBlocks mm = mm := by
  cases mm
  simp only at h
  subst h
  rfl

theorem mergeFreeBlocks_bytes (mm : MemoryManager) :
    totalBytes (mergeFreeBlocks mm).memoryMap = totalBytes mm.memoryMap ∧
    freeBytes (mergeFreeBlocks mm).memoryMap = freeBytes mm.memoryMap := by
  cases hmap : mm.memoryMap with
  | nil => rw [mergeFreeBlocks_nil mm hmap, hmap]; exact ⟨rfl, rfl⟩
  | cons b rest =>
    rw [mergeFreeBlocks_cons mm b rest hmap]
    exact ⟨totalBytes_mergeInto rest b, freeBytes_mergeInto rest b⟩

theorem releaseScan_first (mm : MemoryManager) (p : Process) (b : MemoryBlock)
    (post : List MemoryBlock) (hb : b.start = p.startTime) :
    ∀ (pre : List MemoryBlock) (i : Nat), (∀ c ∈ pre, c.start ≠ p.startTime) →
      releaseScan mm p i (pre ++ b :: post) =
        mergeFreeBlocks
          { mm with memoryMap := mm.memoryMap.set (i + pre.length) { b with free := true } } := by
  intro pre
  induction pre with
  | nil => intro i _; simp only [List.nil_append, releaseScan, if_pos hb, List.length_nil,
      Nat.add_zero]
  | cons c pre ih =>
    intro i h
    rw [List.cons_append, releaseScan, if_neg (h c (List.mem_cons_self _ _)),
      ih (i + 1) (fun d hd => h d (List.mem_cons_of_mem _ hd))]
    simp only [List.length_cons]
    congr 3
    omega

theorem first_start_split (t : Int) :
    ∀ l : List MemoryBlock, (∀ c ∈ l, c.start ≠ t) ∨
      ∃ pre b post, l = pre ++ b :: post ∧ (∀ c ∈ pre, c.start ≠ t) ∧ b.start = t := by
  intro l
  induction l with
  | nil => left; intro c hc; exact absurd hc (List.not_mem_nil c)
  | cons a l ih =>
    by_cases ha : a.start = t
    · right
      exact ⟨[], a, l, rfl, fun c hc => absurd hc (List.not_mem_nil c), ha⟩
    · rcases ih with h | ⟨pre, b, post, hl, hpre, hb⟩
      · left
        intro c hc
        rcases List.mem_cons.mp hc with rfl | hc
        · exact ha
        · exact h c hc
      · right
        refine ⟨a :: pre, b, post, by rw [hl]; rfl, ?_, hb⟩
        intro c hc
        rcases List.mem_cons.mp hc with rfl | hc
        · exact ha
        · exact hpre c hc

theorem release_cases (mm : MemoryManager) (p : Process) :
    ((∀ c ∈ mm.memoryMap, c.start ≠ p.startTime) ∧ release mm p = mm) ∨
    ∃ pre b post, mm.memoryMap = pre ++ b :: post ∧ (∀ c ∈ pre, c.start ≠ p.startTime) ∧
      b.start = p.startTime ∧
      release mm p =
        mergeFreeBlocks { mm with memoryMap := pre ++ { b with free := true } :: post } := by
  rcases first_start_split p.startTime mm.memoryMap with h | ⟨pre, b, post, hl, hpre, hb⟩
  · exact Or.inl ⟨h, releaseScan_none mm p mm.memoryMap 0 h⟩
  · refine Or.inr ⟨pre, b, post, hl, hpre, hb, ?_⟩
    rw [release, hl, releaseScan_first mm p b post hb pre 0 hpre, Nat.zero_add, hl,
      set_length_append]

theorem totalBytes_release (mm : MemoryManager) (p : Process) :
    totalBytes (release mm p).memoryMap = totalBytes mm.memoryMap := by
  rcases release_cases mm p with ⟨_, hno⟩ | ⟨pre, b, post, hl, _, _, hrel⟩
  · rw [hno]
  · rw [hrel, (mergeFreeBlocks_bytes _).1, hl]
    simp only [totalBytes_append, totalBytes_cons]

theorem arrivalsOf_append (l₁ l₂ : List Event) :
    arrivalsOf (l₁ ++ l₂) = arrivalsOf l₁ ++ arrivalsOf l₂ := by
  simp [arrivalsOf, List.filterMap_append]

theorem admittedOf_append (l₁ l₂ : List Event) :
    admittedOf (l₁ ++ l₂) = admittedOf l₁ ++ admittedOf l₂ := by
  simp [admittedOf, List.filterMap_append]

theorem waitingOf_append (l₁ l₂ : List Event) :
    waitingOf (l₁ ++ l₂) = waitingOf l₁ ++ waitingOf l₂ := by
  simp [waitingOf, List.filterMap_append]

theorem completedOf_append (l₁ l₂ : List Event) :
    completedOf (l₁ ++ l₂) = completedOf l₁ ++ completedOf l₂ := by
  simp [completedOf, List.filterMap_append]

theorem allocate_false (mm : MemoryManager) (p : Process)
    (h : (allocate mm p).result = false) :
    (allocate mm p).self = mm ∧ (allocate mm p).process = p := by
  rcases allocate_cases mm p with ⟨_, hno⟩ | ⟨pre, b, post, _, _, _, hal⟩
  · rw [hno]; exact ⟨rfl, rfl⟩
  · rw [hal] at h; cases h

theorem allocate_process_id (mm : MemoryManager) (p : Process) :
    (allocate mm p).process.id = p.id ∧
    (allocate mm p).process.arrivalTime = p.arrivalTime := by
  rcases allocate_cases mm p with ⟨_, hno⟩ | ⟨pre, b, post, _, _, _, hal⟩
  · rw [hno]; exact ⟨rfl, rfl⟩
  · rw [hal]; exact ⟨rfl, rfl⟩

theorem arrive_of_false (clock : Int) (front : Process) (rest : List Process) (s : SimState)
    (h : (allocate s.memoryManager front).result = false) :
    arrive clock front rest s =
      { s with
        inputQueue := rest
        log := s.log ++ [Event.arrives clock front, Event.waiting clock front] } := by
  obtain ⟨h1, h2⟩ := allocate_false s.memoryManager front h
  simp only [arrive, h, h1, h2, Bool.false_eq_true, if_false, List.append_assoc,
    List.singleton_append]

theorem arrive_of_true (clock : Int) (front : Process) (rest : List Process) (s : SimState)
    (h : (allocate s.memoryManager front).result = true) :
    arrive clock front rest s =
      { s with
        inputQueue := rest
        memoryManager := (allocate s.memoryManager front).self
        completedProcesses :=
          s.completedProcesses ++ [(allocate s.memoryManager front).process]
        log := s.log ++ [Event.arrives clock front,
          Event.admitted clock (allocate s.memoryManager front).process
            (allocate s.memoryManager front).self.memoryMap] } := by
  simp only [arrive, h, if_true, List.append_assoc, List.singleton_append]

theorem arrive_inputQueue (clock : Int) (front : Process) (rest : List Process)
    (s : SimState) : (arrive clock front rest s).inputQueue = rest := by
  cases h : (allocate s.memoryManager front).result
  · rw [arrive_of_false clock front rest s h]
  · rw [arrive_of_true clock front rest s h]

theorem arrive_clock (clock : Int) (front : Process) (rest : List Process)
    (s : SimState) : (arrive clock front rest s).clock = s.clock := by
  cases h : (allocate s.memoryManager front).result
  · rw [arrive_of_false clock front rest s h]
  · rw [arrive_of_true clock front rest s h]

theorem arrive_arrivalsOf (clock : Int) (front : Process) (rest : List Process)
    (s : SimState) :
    arrivalsOf (arrive clock front rest s).log = arrivalsOf s.log ++ [(clock, front)] := by
  cases h : (allocate s.memoryManager front).result
  · rw [arrive_of_false clock front rest s h]
    simp only [arrivalsOf_append]
    rfl
  · rw [arrive_of_true clock front rest s h]
    simp only [arrivalsOf_append]
    rfl

theorem SimState.set_inputQueue_self (s : SimState) (q : List Process)
    (h : s.inputQueue = q) : { s with inputQueue := q } = s := by
  cases s
  simp only at h
  subst h
  rfl

theorem processArrivals_induct (P : SimState → Prop) (clock : Int)
    (hstep : ∀ (front : Process) (rest : List Process) (s : SimState),
      s.inputQueue = front :: rest → front.arrivalTime ≤ clock → P s →
        P (arrive clock front rest s)) :
    ∀ (q : List Process) (s : SimState), s.inputQueue = q → P s →
      P (processArrivals clock q s) := by
  intro q
  induction q with
  | nil =>
    intro s hq hP
    rw [processArrivals, SimState.set_inputQueue_self s [] hq]
    exact hP
  | cons front rest ih =>
    intro s hq hP
    rw [processArrivals]
    split_ifs with hle
    · exact ih _ (arrive_inputQueue clock front rest s) (hstep front rest s hq hle hP)
    · rw [SimState.set_inputQueue_self s _ hq]
      exact hP

theorem processArrivals_clock (clock : Int) :
    ∀ (q : List Process) (s : SimState), (processArrivals clock q s).clock = s.clock := by
  intro q
  induction q with
  | nil => intro s; rfl
  | cons front rest ih =>
    intro s
    rw [processArrivals]
    split_ifs with hle
    · rw [ih, arrive_clock]
    · rfl

theorem processCompletions_spec (clock : Int) :
    ∀ (l : List Process) (s : SimState),
      (processCompletions clock l s).inputQueue = s.inputQueue ∧
      (processCompletions clock l s).clock = s.clock ∧
      (processCompletions clock l s).completedProcesses =
        s.completedProcesses ++ l.filter (fun q => decide (q.completionTime ≠ clock)) ∧
      arrivalsOf (processCompletions clock l s).log = arrivalsOf s.log ∧
      admittedOf (processCompletions clock l s).log = admittedOf s.log ∧
      waitingOf (processCompletions clock l s).log = waitingOf s.log ∧
      completedOf (processCompletions clock l s).log =
        completedOf s.log ++ l.filter (fun q => decide (q.completionTime = clock)) ∧
      (processCompletions clock l s).totalTurnaroundTime =
        s.totalTurnaroundTime +
          turnaroundSum (l.filter (fun q => decide (q.completionTime = clock))) := by
  intro l
  induction l with
  | nil =>
    intro s
    simp [processCompletions, turnaroundSum]
  | cons it rest ih =>
    intro s
    rw [processCompletions]
    split_ifs with hc
    · obtain ⟨h1, h2, h3, h4, h5, h6, h7, h8⟩ := ih (complete clock it s)
      rw [h1, h2, h3, h4, h5, h6, h7, h8]
      have e1 : arrivalsOf [Event.completes clock it (release s.memoryManager it).memoryMap]
          = [] := rfl
      have e2 : admittedOf [Event.completes clock it (release s.memoryManager it).memoryMap]
          = [] := rfl
      have e3 : waitingOf [Event.completes clock it (release s.memoryManager it).memoryMap]
          = [] := rfl
      have e4 : completedOf [Event.completes clock it (release s.memoryManager it).memoryMap]
          = [it] := rfl
      have hf1 : (it :: rest).filter (fun q => decide (q.completionTime ≠ clock)) =
          rest.filter (fun q => decide (q.completionTime ≠ clock)) := by
        rw [List.filter_cons, if_neg (by simp [hc])]
      have hf2 : (it :: rest).filter (fun q => decide (q.completionTime = clock)) =
          it :: rest.filter (fun q => decide (q.completionTime = clock)) := by
        rw [List.filter_cons, if_pos (by simp [hc])]
      rw [hf1, hf2]
      simp only [complete, arrivalsOf_append, admittedOf_append, waitingOf_append,
        completedOf_append, e1, e2, e3, e4, List.append_nil, List.append_assoc,
        List.singleton_append]
      refine ⟨trivial, trivial, trivial, trivial, trivial, trivial, trivial, ?_⟩
      simp only [turnaroundSum, List.map_cons, List.sum_cons]
      omega
    · obtain ⟨h1, h2, h3, h4, h5, h6, h7, h8⟩ :=
        ih { s with completedProcesses := s.completedProcesses ++ [it] }
      rw [h1, h2, h3, h4, h5, h6, h7, h8]
      simp [List.filter_cons, hc]

theorem arrive_projections (clock : Int) (front : Process) (rest : List Process)
    (s : SimState) :
    ((allocate s.memoryManager front).result = false ∧
      admittedOf (arrive clock front rest s).log = admittedOf s.log ∧
      waitingOf (arrive clock front rest s).log = waitingOf s.log ++ [front] ∧
      (arrive clock front rest s).completedProcesses = s.completedProcesses) ∨
    ((allocate s.memoryManager front).result = true ∧
      admittedOf (arrive clock front rest s).log =
        admittedOf s.log ++ [(allocate s.memoryManager front).process] ∧
      waitingOf (arrive clock front rest s).log = waitingOf s.log ∧
      (arrive clock front rest s).completedProcesses =
        s.completedProcesses ++ [(allocate s.memoryManager front).process]) := by
  cases h : (allocate s.memoryManager front).result
  · left
    rw [arrive_of_false clock front rest s h]
    refine ⟨rfl, ?_, ?_, rfl⟩
    · simp [admittedOf]
    · simp [waitingOf]
  · right
    rw [arrive_of_true clock front rest s h]
    refine ⟨rfl, ?_, ?_, rfl⟩
    · simp [admittedOf]
    · simp [waitingOf]

theorem arrive_completedOf (clock : Int) (front : Process) (rest : List Process)
    (s : SimState) :
    completedOf (arrive clock front rest s).log = completedOf s.log ∧
    (arrive clock front rest s).totalTurnaroundTime = s.totalTurnaroundTime := by
  cases h : (allocate s.memoryManager front).result
  · rw [arrive_of_false clock front rest s h]
    exact ⟨by simp [completedOf], rfl⟩
  · rw [arrive_of_true clock front rest s h]
    exact ⟨by simp [completedOf], rfl⟩

theorem front_id_fresh (input : List Process) (arrived : List (Int × Process))
    (front : Process) (rest : List Process)
    (hq : arrived.map Prod.snd ++ front :: rest = input)
    (hnd : (input.map (fun p => p.id)).Nodup) :
    front.id ∉ arrived.map (fun a => a.2.id) := by
  rw [← hq, List.map_append, List.map_cons, List.map_map] at hnd
  have := (List.nodup_append.mp hnd).2.2
  intro hmem
  exact this hmem (List.mem_cons_self _ _)

theorem logInvariant_arrive (input : List Process) (clock : Int) (front : Process)
    (rest : List Process) (s : SimState) (hq : s.inputQueue = front :: rest)
    (h : LogInvariant input s) : LogInvariant input (arrive clock front rest s) := by
  have hqueue := h.queue
  rw [hq] at hqueue
  have harr := arrive_arrivalsOf clock front rest s
  obtain ⟨hc, ht⟩ := arrive_completedOf clock front rest s
  have hfresh := front_id_fresh input (arrivalsOf s.log) front rest hqueue
  rcases arrive_projections clock front rest s with ⟨_, ha, hw, hf⟩ | ⟨_, ha, hw, hf⟩
  · refine ⟨?_, ?_, ?_, ?_, ?_, ?_, ?_⟩
    · rw [harr, arrive_inputQueue, ← hqueue]; simp
    · intro p hp
      rw [ha, hw, ← List.append_assoc, List.mem_append] at hp
      rw [harr, List.map_append, List.mem_append]
      rcases hp with hp | hp
      · exact Or.inl (h.outcome p hp)
      · rw [List.mem_singleton] at hp
        rw [hp]; right; simp
    · intro p hp
      rw [hw, List.mem_append] at hp
      rw [harr, List.map_append, List.mem_append]
      rcases hp with hp | hp
      · exact Or.inl (h.waitingInput p hp)
      · rw [List.mem_singleton] at hp
        rw [hp]; right; simp
    · intro hnd p hp q hq'
      rw [hw, List.mem_append] at hp
      rw [ha] at hq'
      rcases hp with hp | hp
      · exact h.disjoint hnd p hp q hq'
      · rw [List.mem_singleton] at hp
        rw [hp]
        intro heq
        apply hfresh hnd
        rw [← heq]
        exact h.outcome q (List.mem_append_left _ hq')
    · intro q hq'
      rw [hc] at hq'
      rw [ha]
      exact h.completed q hq'
    · intro q hq'
      rw [hf] at hq'
      rw [ha]
      exact h.inFlight q hq'
    · rw [ht, hc]; exact h.total
  · have hid := (allocate_process_id s.memoryManager front).1
    refine ⟨?_, ?_, ?_, ?_, ?_, ?_, ?_⟩
    · rw [harr, arrive_inputQueue, ← hqueue]; simp
    · intro p hp
      rw [ha, hw, List.append_assoc, List.mem_append, List.mem_append] at hp
      rw [harr, List.map_append, List.mem_append]
      rcases hp with hp | hp | hp
      · exact Or.inl (h.outcome p (List.mem_append_left _ hp))
      · rw [List.mem_singleton] at hp
        rw [hp, hid]; right; simp
      · exact Or.inl (h.outcome p (List.mem_append_right _ hp))
    · intro p hp
      rw [hw] at hp
      rw [harr, List.map_append, List.mem_append]
      exact Or.inl (h.waitingInput p hp)
    · intro hnd p hp q hq'
      rw [hw] at hp
      rw [ha, List.mem_append] at hq'
      rcases hq' with hq' | hq'
      · exact h.disjoint hnd p hp q hq'
      · rw [List.mem_singleton] at hq'
        rw [hq', hid]
        intro heq
        apply hfresh hnd
        rw [heq]
        exact h.outcome p (List.mem_append_right _ hp)
    · intro q hq'
      rw [hc] at hq'
      rw [ha]
      exact List.mem_append_left _ (h.completed q hq')
    · intro q hq'
      rw [hf, List.mem_append] at hq'
      rw [ha, List.mem_append]
      rcases hq' with hq' | hq'
      · exact Or.inl (h.inFlight q hq')
      · exact Or.inr hq'
    · rw [ht, hc]; exact h.total

theorem tick_clock (s : SimState) : (tick s).clock = s.clock + 1 := by
  show (processCompletions _ _ _).clock + 1 = s.clock + 1
  rw [(processCompletions_spec _ _ _).2.1]
  show (processArrivals s.clock s.inputQueue s).clock + 1 = s.clock + 1
  rw [processArrivals_clock]

theorem tick_spec (s : SimState) :
    (tick s).inputQueue = (processArrivals s.clock s.inputQueue s).inputQueue ∧
    (tick s).completedProcesses =
      (processArrivals s.clock s.inputQueue s).completedProcesses.filter
        (fun q => decide (q.completionTime ≠ s.clock)) ∧
    arrivalsOf (tick s).log = arrivalsOf (processArrivals s.clock s.inputQueue s).log ∧
    admittedOf (tick s).log = admittedOf (processArrivals s.clock s.inputQueue s).log ∧
    waitingOf (tick s).log = waitingOf (processArrivals s.clock s.inputQueue s).log ∧
    completedOf (tick s).log =
      completedOf (processArrivals s.clock s.inputQueue s).log ++
        (processArrivals s.clock s.inputQueue s).completedProcesses.filter
          (fun q => decide (q.completionTime = s.clock)) ∧
    (tick s).totalTurnaroundTime =
      (processArrivals s.clock s.inputQueue s).totalTurnaroundTime +
        turnaroundSum ((processArrivals s.clock s.inputQueue s).completedProcesses.filter
          (fun q => decide (q.completionTime = s.clock))) := by
  have hclk := processArrivals_clock s.clock s.inputQueue s
  obtain ⟨h1, _, h3, h4, h5, h6, h7, h8⟩ :=
    processCompletions_spec (processArrivals s.clock s.inputQueue s).clock
      (processArrivals s.clock s.inputQueue s).completedProcesses
      { processArrivals s.clock s.inputQueue s with completedProcesses := [] }
  simp only [List.nil_append] at h3
  conv at h3 => rhs; rw [hclk]
  conv at h7 => rhs; rw [hclk]
  conv at h8 => rhs; rw [hclk]
  exact ⟨h1, h3, h4, h5, h6, h7, h8⟩

theorem mainLoop_invariant (P Q : SimState → Prop) (hPQ : ∀ s, P s → Q s)
    (hstep : ∀ s, P s → s.inputQueue ≠ [] → ¬ (tick s).clock > 100000 → P (tick s))
    (hbreak : ∀ s, P s → s.inputQueue ≠ [] → (tick s).clock > 100000 → Q (tick s)) :
    ∀ (fuel : Nat) (s : SimState), P s → Q (mainLoop fuel s) := by
  intro fuel
  induction fuel with
  | zero => intro s hP; exact hPQ s hP
  | succ fuel ih =>
    intro s hP
    rw [mainLoop]
    by_cases hq : s.inputQueue.isEmpty = true
    · rw [if_pos hq]; exact hPQ s hP
    · rw [if_neg hq]
      have hne : s.inputQueue ≠ [] := by simpa using hq
      show Q (if (tick s).clock > 100000 then tick s else mainLoop fuel (tick s))
      by_cases hc : (tick s).clock > 100000
      · rw [if_pos hc]; exact hbreak s hP hne hc
      · rw [if_neg hc]; exact ih _ (hstep s hP hne hc)

theorem logInvariant_tick (input : List Process) (s : SimState)
    (h : LogInvariant input s) : LogInvariant input (tick s) := by
  have h1 : LogInvariant input (processArrivals s.clock s.inputQueue s) :=
    processArrivals_induct (LogInvariant input) s.clock
      (fun front rest t hq _ ht => logInvariant_arrive input s.clock front rest t hq ht)
      s.inputQueue s rfl h
  obtain ⟨t1, t2, t3, t4, t5, t6, t7⟩ := tick_spec s
  refine ⟨?_, ?_, ?_, ?_, ?_, ?_, ?_⟩
  · rw [t3, t1]; exact h1.queue
  · rw [t3, t4, t5]; exact h1.outcome
  · rw [t3, t5]; exact h1.waitingInput
  · rw [t4, t5]; exact h1.disjoint
  · intro q hq
    rw [t6, List.mem_append] at hq
    rw [t4]
    rcases hq with hq | hq
    · exact h1.completed q hq
    · exact h1.inFlight q (List.mem_filter.mp hq).1
  · intro q hq
    rw [t2] at hq
    rw [t4]
    exact h1.inFlight q (List.mem_filter.mp hq).1
  · rw [t7, t6, h1.total]
    simp [turnaroundSum]

theorem logInvariant_start (input : List Process) (memorySize pageSize : Int) :
    LogInvariant input (SimState.start input memorySize pageSize) := by
  refine ⟨rfl, ?_, ?_, ?_, ?_, ?_, rfl⟩
  · intro p hp; cases hp
  · intro p hp; cases hp
  · intro _ p hp; cases hp
  · intro q hq; cases hq
  · intro q hq; cases hq

theorem logInvariant_simulate (input : List Process) (memorySize pageSize : Int) :
    LogInvariant input (simulate input memorySize pageSize).final :=
  mainLoop_invariant (LogInvariant input) (LogInvariant input) (fun _ h => h)
    (fun s h _ _ => logInvariant_tick input s h) (fun s h _ _ => logInvariant_tick input s h)
    100001 _ (logInvariant_start input memorySize pageSize)

theorem clockInvariant_tick (s : SimState) (h : ClockInvariant s) :
    0 ≤ (tick s).clock ∧ (tick s).clock ≤ 100001 ∧
    ∀ a ∈ arrivalsOf (tick s).log, a.2.arrivalTime ≤ a.1 ∧ 0 ≤ a.1 ∧ a.1 ≤ 100000 := by
  have h1 : ∀ a ∈ arrivalsOf (processArrivals s.clock s.inputQueue s).log,
      a.2.arrivalTime ≤ a.1 ∧ 0 ≤ a.1 ∧ a.1 ≤ 100000 :=
    processArrivals_induct
      (fun t => ∀ a ∈ arrivalsOf t.log, a.2.arrivalTime ≤ a.1 ∧ 0 ≤ a.1 ∧ a.1 ≤ 100000)
      s.clock
      (fun front rest t _ hle ht a ha => by
        rw [arrive_arrivalsOf, List.mem_append, List.mem_singleton] at ha
        rcases ha with ha | ha
        · exact ht a ha
        · rw [ha]; exact ⟨hle, h.nonneg, h.bound⟩)
      s.inputQueue s rfl h.arrivals
  have hb := h.bound
  have hn := h.nonneg
  refine ⟨by rw [tick_clock]; omega, by rw [tick_clock]; omega, ?_⟩
  rw [(tick_spec s).2.2.1]
  exact h1

theorem clockInvariant_simulate (input : List Process) (memorySize pageSize : Int) :
    0 ≤ (simulate input memorySize pageSize).final.clock ∧
    (simulate input memorySize pageSize).final.clock ≤ 100001 ∧
    ∀ a ∈ arrivalsOf (simulate input memorySize pageSize).final.log,
      a.2.arrivalTime ≤ a.1 ∧ 0 ≤ a.1 ∧ a.1 ≤ 100000 :=
  mainLoop_invariant ClockInvariant
    (fun t => 0 ≤ t.clock ∧ t.clock ≤ 100001 ∧
      ∀ a ∈ arrivalsOf t.log, a.2.arrivalTime ≤ a.1 ∧ 0 ≤ a.1 ∧ a.1 ≤ 100000)
    (fun t h => ⟨h.nonneg, le_trans h.bound (by decide), h.arrivals⟩)
    (fun t h _ hc =>
      ⟨(clockInvariant_tick t h).1, not_lt.mp hc, (clockInvariant_tick t h).2.2⟩)
    (fun t h _ _ => clockInvariant_tick t h)
    100001 (SimState.start input memorySize pageSize)
    ⟨le_refl _, show (0 : Int) ≤ 100000 by decide, fun a ha => by cases ha⟩

theorem mainLoop_exit :
    ∀ (fuel : Nat) (s : SimState), 100001 ≤ s.clock + fuel →
      (mainLoop fuel s).inputQueue = [] ∨ (mainLoop fuel s).clock > 100000 := by
  intro fuel
  induction fuel with
  | zero =>
    intro s h
    right
    rw [mainLoop]
    simp only [Nat.cast_zero, add_zero] at h
    omega
  | succ fuel ih =>
    intro s h
    rw [mainLoop]
    by_cases hq : s.inputQueue.isEmpty = true
    · rw [if_pos hq]
      exact Or.inl (by simpa using hq)
    · rw [if_neg hq]
      show (if (tick s).clock > 100000 then tick s else mainLoop fuel (tick s)).inputQueue = []
        ∨ (if (tick s).clock > 100000 then tick s else mainLoop fuel (tick s)).clock > 100000
      by_cases hc : (tick s).clock > 100000
      · rw [if_pos hc]; exact Or.inr hc
      · rw [if_neg hc]
        apply ih
        rw [tick_clock]
        push_cast at h
        omega

theorem mainLoop_fuel :
    ∀ (fuel : Nat) (s : SimState) (extra : Nat), 100001 ≤ s.clock + fuel → 1 ≤ fuel →
      mainLoop (fuel + extra) s = mainLoop fuel s := by
  intro fuel
  induction fuel with
  | zero => intro s extra _ h1; omega
  | succ fuel ih =>
    intro s extra h _
    have hsucc : fuel + 1 + extra = (fuel + extra) + 1 := by omega
    rw [hsucc, mainLoop, mainLoop]
    by_cases hq : s.inputQueue.isEmpty = true
    · rw [if_pos hq, if_pos hq]
    · rw [if_neg hq, if_neg hq]
      show (if (tick s).clock > 100000 then tick s else mainLoop (fuel + extra) (tick s)) =
        (if (tick s).clock > 100000 then tick s else mainLoop fuel (tick s))
      by_cases hc : (tick s).clock > 100000
      · rw [if_pos hc, if_pos hc]
      · rw [if_neg hc, if_neg hc]
        have hclk := tick_clock s
        push_cast at h
        apply ih
        · omega
        · omega

theorem processArrivals_queue (clock : Int) :
    ∀ (q : List Process) (s : SimState),
      q.Pairwise (fun a b => a.arrivalTime ≤ b.arrivalTime) →
      ∀ p ∈ (processArrivals clock q s).inputQueue, clock < p.arrivalTime := by
  intro q
  induction q with
  | nil => intro s _ p hp; cases hp
  | cons front rest ih =>
    intro s hs p hp
    rw [processArrivals] at hp
    rw [List.pairwise_cons] at hs
    by_cases hle : front.arrivalTime ≤ clock
    · rw [if_pos hle] at hp
      exact ih _ hs.2 p hp
    · rw [if_neg hle] at hp
      have hp' : p ∈ front :: rest := hp
      rcases List.mem_cons.mp hp' with rfl | hp''
      · omega
      · have := hs.1 p hp''
        omega

theorem arrivalInvariant_arrive (input : List Process) (clock : Int) (front : Process)
    (rest : List Process) (s : SimState) (hq : s.inputQueue = front :: rest)
    (hle : front.arrivalTime ≤ clock)
    (h : ArrivalInvariant input s ∧ s.clock = clock) :
    ArrivalInvariant input (arrive clock front rest s) ∧
      (arrive clock front rest s).clock = clock := by
  obtain ⟨hinv, hclk⟩ := h
  have hlq := hinv.logQueue
  have hah := hinv.ahead
  have hso := hinv.sorted
  rw [hq] at hlq hah hso
  have hfront : front.arrivalTime = clock := by
    have := hah front (List.mem_cons_self _ _)
    omega
  refine ⟨⟨?_, ?_, ?_⟩, by rw [arrive_clock, hclk]⟩
  · rw [arrive_arrivalsOf, arrive_inputQueue, ← hlq, ← hfront]
    simp
  · intro p hp
    rw [arrive_inputQueue] at hp
    rw [arrive_clock]
    exact hah p (List.mem_cons_of_mem _ hp)
  · rw [arrive_inputQueue]
    exact (List.pairwise_cons.mp hso).2

theorem arrivalInvariant_tick (input : List Process) (s : SimState)
    (h : ArrivalInvariant input s) : ArrivalInvariant input (tick s) := by
  have h1 := processArrivals_induct
    (fun t => ArrivalInvariant input t ∧ t.clock = s.clock) s.clock
    (fun front rest t hq hle ht => arrivalInvariant_arrive input s.clock front rest t hq hle ht)
    s.inputQueue s rfl ⟨h, rfl⟩
  have h2 := processArrivals_queue s.clock s.inputQueue s h.sorted
  obtain ⟨t1, _, t3, _⟩ := tick_spec s
  refine ⟨?_, ?_, ?_⟩
  · rw [t3, t1]; exact h1.1.logQueue
  · intro p hp
    rw [t1] at hp
    rw [tick_clock]
    have := h2 p hp
    omega
  · rw [t1]; exact h1.1.sorted

theorem arrivalInvariant_simulate (input : List Process) (memorySize pageSize : Int)
    (hsorted : input.Pairwise (fun a b => a.arrivalTime ≤ b.arrivalTime))
    (hrange : ∀ p ∈ input, 0 ≤ p.arrivalTime) :
    ArrivalInvariant input (simulate input memorySize pageSize).final :=
  mainLoop_invariant (ArrivalInvariant input) (ArrivalInvariant input) (fun _ h => h)
    (fun s h _ _ => arrivalInvariant_tick input s h)
    (fun s h _ _ => arrivalInvariant_tick input s h)
    100001 (SimState.start input memorySize pageSize)
    ⟨rfl, hrange, hsorted⟩

/-! ## The claims -/

/-- C1 (partition invariant), evaluated on the code. The first `allocate` on
`MemoryManager(2000, 100)`, 300 bytes, splits the only block; the vector is full, so
`emplace_back` moves it and the shrinking assignment of line 54 is lost: the map is
`(0,2000)` allocated and `(300,1700)` free, two blocks that overlap. Later,
`mergeFreeBlocks` adds up the storage neighbours `(600,1400)` and `(100,1900)`, which
are not address neighbours: `frag5` has a free block `(600,3300)` running past 2000. -/
theorem partition_broken_after_first_split :
    Reachable 2000 100 frag1.self ∧
    frag1.self.memoryMap = [MemoryBlock.mk 0 2000 false, MemoryBlock.mk 300 1700 true] ∧
    partitioned frag1.self = false ∧
    Reachable 2000 100 frag5 ∧
    frag4.self.memoryMap =
      [MemoryBlock.mk 0 100 false, MemoryBlock.mk 300 1700 false,
       MemoryBlock.mk 600 1400 true, MemoryBlock.mk 100 1900 true] ∧
    frag5.memoryMap =
      [MemoryBlock.mk 0 100 true, MemoryBlock.mk 300 1700 false, MemoryBlock.mk 600 3300 true] ∧
    partitioned frag5 = false := by
  refine ⟨?_, by decide, by decide, ?_, by decide, by decide, by decide⟩
  · exact Reachable.afterAllocate _ _ Reachable.init (by decide)
  · exact Reachable.afterRelease _ _
      (Reachable.afterAllocate _ _
        (Reachable.afterRelease _ _
          (Reachable.afterAllocate _ _
            (Reachable.afterAllocate _ _ Reachable.init (by decide)) (by decide))
          (by decide)) (by decide)) (by decide)

/-- C2 (no adjacent free blocks in address order after coalescing), evaluated on the
code: `adj6` is the result of a `release` that found its block and ran
`mergeFreeBlocks`; the blocks starting at 0 (size 100) and at 100 are both free and
follow each other in address order, but they sit at storage indices 0 and 3 and stay
unmerged. -/
theorem adjacent_free_after_coalescing :
    Reachable 2000 100 adj5.self ∧
    adj6 = mergeFreeBlocks
      { adj5.self with memoryMap :=
          [MemoryBlock.mk 0 100 true, MemoryBlock.mk 300 1700 false,
           MemoryBlock.mk 600 1400 false, MemoryBlock.mk 100 1900 true] } ∧
    adj6.memoryMap =
      [MemoryBlock.mk 0 100 true, MemoryBlock.mk 300 1700 false,
       MemoryBlock.mk 600 1400 false, MemoryBlock.mk 100 1900 true] ∧
    sortedByStart adj6.memoryMap =
      [MemoryBlock.mk 0 100 true, MemoryBlock.mk 100 1900 true,
       MemoryBlock.mk 300 1700 false, MemoryBlock.mk 600 1400 false] ∧
    noAdjacentFree (sortedByStart adj6.memoryMap) = false := by
  refine ⟨?_, by decide, by decide, by decide, by decide⟩
  exact Reachable.afterAllocate _ _
    (Reachable.afterAllocate _ _
      (Reachable.afterRelease _ _
        (Reachable.afterAllocate _ _
          (Reachable.afterAllocate _ _ Reachable.init (by decide)) (by decide))
        (by decide)) (by decide)) (by decide)

/-- C3 (page-rounding law), evaluated on the code: on `MemoryManager(2000, 100)` a
process of 250 bytes needs `3 * 100 = 300` bytes and `allocate` succeeds, but the block
it marks allocated keeps the size 2000, not 300: the vector was moved by `emplace_back`
and the assignment of line 54 went to the old buffer. The free bytes do go down by 300,
from 2000 to 1700. -/
theorem allocated_block_keeps_old_size :
    requiredBytes (MemoryManager.new 2000 100) (Process.ofInput 1 0 5 [250]) = 300 ∧
    (allocate (MemoryManager.new 2000 100) (Process.ofInput 1 0 5 [250])).result = true ∧
    (allocate (MemoryManager.new 2000 100) (Process.ofInput 1 0 5 [250])).self.memoryMap =
      [MemoryBlock.mk 0 2000 false, MemoryBlock.mk 300 1700 true] ∧
    freeBytes (MemoryManager.new 2000 100).memoryMap = 2000 ∧
    freeBytes (allocate (MemoryManager.new 2000 100)
      (Process.ofInput 1 0 5 [250])).self.memoryMap = 1700 := by
  decide

/-- C4 (round trip), evaluated on the code: on `MemoryManager(2000, 100)`, `allocate` of
a process of 250 bytes leaves `(0,2000)` allocated and `(300,1700)` free, and the
`release` that follows merges the two into one free block of 3700 bytes, which is not
the initial map. -/
theorem round_trip_grows_free_block :
    (allocate (MemoryManager.new 2000 100) (Process.ofInput 1 0 5 [250])).self.memoryMap =
      [MemoryBlock.mk 0 2000 false, MemoryBlock.mk 300 1700 true] ∧
    (release (allocate (MemoryManager.new 2000 100) (Process.ofInput 1 0 5 [250])).self
        (allocate (MemoryManager.new 2000 100) (Process.ofInput 1 0 5 [250])).process).memoryMap
      = [MemoryBlock.mk 0 3700 true] ∧
    (MemoryManager.new 2000 100).memoryMap = [MemoryBlock.mk 0 2000 true] := by
  decide

/-- C5 (release frees exactly what was allocated), evaluated on the code: in the
reachable state `ovl7.self` two blocks start at offset 300 and 3100 bytes are free.
Process 6 (1300 bytes) is given the free one at storage index 4; the `release` that
follows immediately frees the block at storage index 1 instead and merges it with its
neighbour, the block given to process 6 stays allocated, and 3500 bytes are free
afterwards. -/
theorem release_frees_other_block :
    Reachable 2000 100 ovl7.self ∧
    ovl7.self.memoryMap =
      [MemoryBlock.mk 0 100 true, MemoryBlock.mk 300 1700 false, MemoryBlock.mk 600 1400 false,
       MemoryBlock.mk 100 200 false, MemoryBlock.mk 300 3000 true] ∧
    ovl8.result = true ∧
    ovl8.process.startTime = 300 ∧
    ovl8.self.memoryMap =
      [MemoryBlock.mk 0 100 true, MemoryBlock.mk 300 1700 false, MemoryBlock.mk 600 1400 false,
       MemoryBlock.mk 100 200 false, MemoryBlock.mk 300 1300 false,
       MemoryBlock.mk 1600 1700 true] ∧
    ovl9.memoryMap =
      [MemoryBlock.mk 0 1800 true, MemoryBlock.mk 600 1400 false, MemoryBlock.mk 100 200 false,
       MemoryBlock.mk 300 1300 false, MemoryBlock.mk 1600 1700 true] ∧
    freeBytes ovl7.self.memoryMap = 3100 ∧
    freeBytes ovl9.memoryMap = 3500 := by
  refine ⟨?_, by decide, by decide, by decide, by decide, by decide, by decide, by decide⟩
  exact Reachable.afterAllocate _ _
    (Reachable.afterRelease _ _
      (Reachable.afterAllocate _ _
        (Reachable.afterAllocate _ _
          (Reachable.afterRelease _ _
            (Reachable.afterAllocate _ _
              (Reachable.afterAllocate _ _ Reachable.init (by decide)) (by decide))
            (by decide)) (by decide)) (by decide)) (by decide)) (by decide)

/-- C6 (allocation failure is atomic): `allocate` returns `true` exactly when `memoryMap`
holds a free block of at least `numPages * pageSize` bytes; when it returns `false` the
manager (hence `memoryMap`: same blocks, same order, same flags) and the process (hence
`startTime`, `completionTime`, `admitted`) are unchanged; and for positive page size and
`totalMemory` that byte count is `ceil(totalMemory / pageSize) * pageSize`. -/
theorem allocate_failure_atomic (mm : MemoryManager) (p : Process) :
    ((allocate mm p).result = true ↔
      ∃ b ∈ mm.memoryMap, b.free = true ∧ requiredBytes mm p ≤ b.size) ∧
    ((allocate mm p).result = false →
      (allocate mm p).self = mm ∧ (allocate mm p).process = p) ∧
    (0 < mm.pageSize → 0 < p.totalMemory →
      requiredBytes mm p = ⌈(p.totalMemory : ℚ) / (mm.pageSize : ℚ)⌉ * mm.pageSize) := by
  refine ⟨?_, ?_, requiredBytes_eq_ceil mm p⟩
  · rcases allocate_cases mm p with ⟨hnone, hno⟩ | ⟨pre, b, post, hl, _, hb, hal⟩
    · rw [hno]
      constructor
      · intro h; cases h
      · rintro ⟨b, hmem, hb⟩
        have := hnone b hmem
        rw [(fits_iff mm p b).mpr hb] at this
        cases this
    · rw [hal]
      constructor
      · intro _
        exact ⟨b, by rw [hl]; simp, (fits_iff mm p b).mp hb⟩
      · intro _; rfl
  · intro hfalse
    rcases allocate_cases mm p with ⟨_, hno⟩ | ⟨pre, b, post, _, _, _, hal⟩
    · rw [hno]; exact ⟨rfl, rfl⟩
    · rw [hal] at hfalse; cases hfalse

theorem allocate_failure_atomic_witness :
    (allocate frag1.self (Process.ofInput 2 0 5 [1800])).result = false ∧
    (allocate frag1.self (Process.ofInput 2 0 5 [1800])).self = frag1.self ∧
    (allocate frag1.self (Process.ofInput 2 0 5 [1800])).process
      = Process.ofInput 2 0 5 [1800] :=
  ⟨by decide,
   (allocate_failure_atomic frag1.self (Process.ofInput 2 0 5 [1800])).2.1 (by decide)⟩

/-- C7 (release of an unrecognised process): when no block of `memoryMap` starts at the
process's `startTime`, `release` returns the manager unchanged. -/
theorem release_unrecognized_noop (mm : MemoryManager) (p : Process)
    (h : ∀ b ∈ mm.memoryMap, b.start ≠ p.startTime) : release mm p = mm :=
  releaseScan_none mm p mm.memoryMap 0 h

theorem release_unrecognized_noop_witness :
    release frag2.self (Process.ofInput 7 0 5 [100]) = frag2.self :=
  release_unrecognized_noop frag2.self (Process.ofInput 7 0 5 [100]) (by decide)

/-- C8 (first fit in storage order): when `allocate` succeeds, the old `memoryMap` is
`pre ++ b :: post` where `b` is free with `size ≥ numPages * pageSize` and no block of
`pre` is; the new map keeps `pre` unchanged in front of the block, which is now marked
allocated at the same start; and the process comes back with `admitted = true`,
`startTime = b.start` and `completionTime = startTime + lifetime`, its other fields
unchanged. -/
theorem allocate_first_fit (mm : MemoryManager) (p : Process)
    (hok : (allocate mm p).result = true) :
    ∃ pre b post marked rest, mm.memoryMap = pre ++ b :: post ∧
      (∀ c ∈ pre, ¬ (c.free = true ∧ requiredBytes mm p ≤ c.size)) ∧
      b.free = true ∧ requiredBytes mm p ≤ b.size ∧
      (allocate mm p).self.memoryMap = pre ++ marked :: rest ∧
      marked.start = b.start ∧ marked.free = false ∧
      (allocate mm p).process =
        { p with admitted := true, startTime := b.start,
                 completionTime := b.start + p.lifetime } := by
  rcases allocate_cases mm p with ⟨_, hno⟩ | ⟨pre, b, post, hl, hpre, hb, hal⟩
  · rw [hno] at hok; cases hok
  · rw [hal]
    exact ⟨pre, b, post, _, _, hl, fun c hc => (fits_eq_false_iff mm p c).mp (hpre c hc),
      ((fits_iff mm p b).mp hb).1, ((fits_iff mm p b).mp hb).2,
      allocateAt_memoryMap mm p pre b post hl, rfl, rfl, rfl⟩

theorem allocate_first_fit_witness :
    ∃ pre b post marked rest, frag4.self.memoryMap = pre ++ b :: post ∧
      (∀ c ∈ pre, ¬ (c.free = true ∧
        requiredBytes frag4.self (Process.ofInput 4 0 5 [1400]) ≤ c.size)) ∧
      b.free = true ∧ requiredBytes frag4.self (Process.ofInput 4 0 5 [1400]) ≤ b.size ∧
      (allocate frag4.self (Process.ofInput 4 0 5 [1400])).self.memoryMap =
        pre ++ marked :: rest ∧
      marked.start = b.start ∧ marked.free = false ∧
      (allocate frag4.self (Process.ofInput 4 0 5 [1400])).process =
        { Process.ofInput 4 0 5 [1400] with
            admitted := true, startTime := b.start,
            completionTime := b.start + (Process.ofInput 4 0 5 [1400]).lifetime } :=
  allocate_first_fit frag4.self (Process.ofInput 4 0 5 [1400]) (by decide)

/-- C9 (split shape), evaluated on the code: on `MemoryManager(2000, 100)` a process of
250 bytes matches block 0 with `z = 2000 > r = 300`; the block `(300, 1700, free)` is
appended, but block 0 becomes `(0, 2000, allocated)`, not `(0, 300, allocated)`, because
`emplace_back` moved the full vector before line 54 wrote through `block`. A split that
finds room in the vector (`frag3` to `frag4`, three blocks, capacity four) has the
claimed shape. -/
theorem split_keeps_old_size_on_reallocation :
    (MemoryManager.new 2000 100).memoryMap = [MemoryBlock.mk 0 2000 true] ∧
    (MemoryManager.new 2000 100).capacity = 1 ∧
    requiredBytes (MemoryManager.new 2000 100) (Process.ofInput 1 0 5 [250]) = 300 ∧
    (allocate (MemoryManager.new 2000 100) (Process.ofInput 1 0 5 [250])).self.memoryMap =
      [MemoryBlock.mk 0 2000 false, MemoryBlock.mk 300 1700 true] ∧
    frag3.memoryMap =
      [MemoryBlock.mk 0 2000 true, MemoryBlock.mk 300 1700 false,
       MemoryBlock.mk 600 1400 true] ∧
    frag3.capacity = 4 ∧
    (allocate frag3 (Process.ofInput 3 0 5 [100])).self.memoryMap =
      [MemoryBlock.mk 0 100 false, MemoryBlock.mk 300 1700 false,
       MemoryBlock.mk 600 1400 true, MemoryBlock.mk 100 1900 true] := by
  decide

/-- C10 as stated fails: with page size 100 a process asking for 200 bytes, an exact
multiple, is placed in the 2000-byte block of the initial state, and a new free block
is appended for the surplus: the map grows from one block to two. -/
theorem exact_multiple_still_splits :
    (Process.ofInput 1 0 5 [200]).totalMemory = 2 * (MemoryManager.new 2000 100).pageSize ∧
    (allocate (MemoryManager.new 2000 100) (Process.ofInput 1 0 5 [200])).result = true ∧
    (MemoryManager.new 2000 100).memoryMap.length = 1 ∧
    (allocate (MemoryManager.new 2000 100)
      (Process.ofInput 1 0 5 [200])).self.memoryMap.length = 2 ∧
    (allocate (MemoryManager.new 2000 100) (Process.ofInput 1 0 5 [200])).self.memoryMap.length
      ≠ (MemoryManager.new 2000 100).memoryMap.length := by
  decide

/-- C10 as amended: when `totalMemory` is a positive multiple of the page size, the bytes
required are exactly `totalMemory` (nothing is rounded up); a successful `allocate`
leaves the number of blocks unchanged when the matched block has exactly that size, the
block then being marked allocated with its size `totalMemory`; and when the matched
block is larger, the surplus is appended at the end as one new free block. -/
theorem allocate_exact_multiple (mm : MemoryManager) (p : Process) (hs : 0 < mm.pageSize)
    (hm : 0 < p.totalMemory) (hdvd : mm.pageSize ∣ p.totalMemory)
    (hok : (allocate mm p).result = true) :
    requiredBytes mm p = p.totalMemory ∧
    ∃ pre b post, mm.memoryMap = pre ++ b :: post ∧ b.free = true ∧
      p.totalMemory ≤ b.size ∧
      (b.size = p.totalMemory →
        (allocate mm p).self.memoryMap =
          pre ++ MemoryBlock.mk b.start p.totalMemory false :: post ∧
        (allocate mm p).self.memoryMap.length = mm.memoryMap.length) ∧
      (p.totalMemory < b.size →
        (∃ marked, marked.start = b.start ∧ marked.free = false ∧
          (allocate mm p).self.memoryMap =
            (pre ++ marked :: post) ++
              [MemoryBlock.mk (b.start + p.totalMemory) (b.size - p.totalMemory) true]) ∧
        (allocate mm p).self.memoryMap.length = mm.memoryMap.length + 1) := by
  have hr := requiredBytes_of_dvd mm p hs hm hdvd
  refine ⟨hr, ?_⟩
  rcases allocate_cases mm p with ⟨_, hno⟩ | ⟨pre, b, post, hl, _, hb, hal⟩
  · rw [hno] at hok; cases hok
  · obtain ⟨hfree, hle⟩ := (fits_iff mm p b).mp hb
    have hmap := allocateAt_memoryMap mm p pre b post hl
    rw [hr] at hle hmap
    rw [hal]
    refine ⟨pre, b, post, hl, hfree, hle, ?_, ?_⟩
    · intro heq
      have hnr : reallocates mm p b = false := by
        simp [reallocates, hr, heq]
      have hng : ¬ b.size > p.totalMemory := by omega
      rw [hnr] at hmap
      rw [if_neg hng] at hmap
      simp only [Bool.false_eq_true, if_false, List.append_nil] at hmap
      rw [hmap, hl]
      exact ⟨rfl, by simp⟩
    · intro hlt
      rw [if_pos hlt] at hmap
      rw [hmap, hl]
      refine ⟨⟨MemoryBlock.mk b.start
          (if reallocates mm p b then b.size else p.totalMemory) false, rfl, rfl,
        by rw [List.append_assoc, List.cons_append]⟩, by simp; omega⟩

theorem allocate_exact_multiple_witness :
    requiredBytes (MemoryManager.new 2000 100) (Process.ofInput 1 0 5 [200]) =
      (Process.ofInput 1 0 5 [200]).totalMemory :=
  (allocate_exact_multiple (MemoryManager.new 2000 100) (Process.ofInput 1 0 5 [200])
    (by decide) (by decide) (by decide) (by decide)).1

/-- C11 (coalescing pass): on a non-empty `memoryMap` the loop of `mergeFreeBlocks` leaves
through its loop condition within `length` passes; afterwards no two entries at
consecutive storage indices are both free; the result is the input with every maximal
run of consecutive free entries replaced by one free entry carrying the first entry's
start and the sum of the run's sizes; the allocated entries are the same, in the same
order. -/
theorem mergeFreeBlocks_postcondition (mm : MemoryManager) (hne : mm.memoryMap ≠ []) :
    mergeLoopExit mm.memoryMap.length 0 mm.memoryMap = some (mergeFreeBlocks mm).memoryMap ∧
    (∀ (i : Nat) (b c : MemoryBlock), (mergeFreeBlocks mm).memoryMap[i]? = some b →
      (mergeFreeBlocks mm).memoryMap[i + 1]? = some c → ¬ (b.free = true ∧ c.free = true)) ∧
    (mergeFreeBlocks mm).memoryMap = coalesceRuns mm.memoryMap ∧
    (mergeFreeBlocks mm).memoryMap.filter (fun b => !b.free) =
      mm.memoryMap.filter (fun b => !b.free) ∧
    (mergeFreeBlocks mm).memorySize = mm.memorySize ∧
    (mergeFreeBlocks mm).pageSize = mm.pageSize := by
  obtain ⟨b, rest, hmap⟩ := List.exists_cons_of_ne_nil hne
  have hm : (mergeFreeBlocks mm).memoryMap = mergeInto b rest := by
    rw [mergeFreeBlocks_cons mm b rest hmap]
  have hexit := mergeLoopExit_append (b :: rest).length [] b rest (by simp)
  simp only [List.length_nil, List.nil_append] at hexit
  refine ⟨by rw [hm, hmap, hexit], ?_, ?_, ?_, rfl, rfl⟩
  · rw [hm]
    exact noAdjacentFree_index _ (noAdjacentFree_mergeInto rest b)
  · rw [hm, hmap, mergeInto_eq_coalesceRuns]
  · rw [hm, hmap, mergeInto_allocated]

theorem mergeFreeBlocks_postcondition_witness :
    (mergeFreeBlocks (MemoryManager.mk 2000 100
        [MemoryBlock.mk 0 100 true, MemoryBlock.mk 100 200 true, MemoryBlock.mk 300 300 true,
         MemoryBlock.mk 600 400 false, MemoryBlock.mk 1000 1000 true] 8)).memoryMap =
      [MemoryBlock.mk 0 600 true, MemoryBlock.mk 600 400 false, MemoryBlock.mk 1000 1000 true] ∧
    mergeLoopExit 5 0
        [MemoryBlock.mk 0 100 true, MemoryBlock.mk 100 200 true, MemoryBlock.mk 300 300 true,
         MemoryBlock.mk 600 400 false, MemoryBlock.mk 1000 1000 true] =
      some (mergeFreeBlocks (MemoryManager.mk 2000 100
        [MemoryBlock.mk 0 100 true, MemoryBlock.mk 100 200 true, MemoryBlock.mk 300 300 true,
         MemoryBlock.mk 600 400 false, MemoryBlock.mk 1000 1000 true] 8)).memoryMap :=
  ⟨by decide,
   (mergeFreeBlocks_postcondition (MemoryManager.mk 2000 100
        [MemoryBlock.mk 0 100 true, MemoryBlock.mk 100 200 true, MemoryBlock.mk 300 300 true,
         MemoryBlock.mk 600 400 false, MemoryBlock.mk 1000 1000 true] 8) (by decide)).1⟩

/-- C12 (drain before exit), evaluated on the code for Scenario A: the process is placed
at offset 0 with `completionTime = 5`; the main loop is left after the first pass, at
clock 1, because the queue is empty, with the process still in `completedProcesses`;
nothing was released (the log has no `completes` entry) and the final memory map is
`(0,2000)` allocated and `(300,1700)` free, not the single free block. -/
theorem scenarioA_exits_with_process_in_flight :
    scenarioA.final.clock = 1 ∧
    scenarioA.final.inputQueue = [] ∧
    scenarioA.final.completedProcesses =
      [Process.mk 1 0 5 250 [250] 0 5 true] ∧
    completedOf scenarioA.final.log = [] ∧
    scenarioA.final.memoryManager.memoryMap =
      [MemoryBlock.mk 0 2000 false, MemoryBlock.mk 300 1700 true] ∧
    scenarioA.final.memoryManager.memoryMap ≠ [MemoryBlock.mk 0 2000 true] := by
  decide

/-- C13 (average turnaround), evaluated on the code. In `twoArrivals` one process
completes, with turnaround 5, and the second is still in `completedProcesses` at the end:
the reported average is `5 / numProcesses = 5/2`, not `5/1`. In `lateMisfit` the same
process completes and the second one is never admitted, so `completedProcesses` is empty
at the end: the reported average is `0`, not `5`. -/
theorem average_divides_by_input_count :
    completedOf twoArrivals.final.log =
      [Process.mk 1 0 5 250 [250] 0 5 true] ∧
    twoArrivals.final.totalTurnaroundTime = 5 ∧
    twoArrivals.avgTurnaroundTime = 5 / 2 ∧
    averageOverCompleted twoArrivals.final.log = 5 ∧
    completedOf lateMisfit.final.log =
      [Process.mk 1 0 5 250 [250] 0 5 true] ∧
    waitingOf lateMisfit.final.log = [Process.ofInput 2 10 5 [9000]] ∧
    lateMisfit.final.totalTurnaroundTime = 5 ∧
    lateMisfit.avgTurnaroundTime = 0 ∧
    averageOverCompleted lateMisfit.final.log = 5 := by
  have h1 : completedOf twoArrivals.final.log =
      [Process.mk 1 0 5 250 [250] 0 5 true] := by
    decide
  have h2 : twoArrivals.final.totalTurnaroundTime = 5 := by decide
  have h3 : twoArrivals.final.completedProcesses.isEmpty = false := by decide
  have h4 : completedOf lateMisfit.final.log =
      [Process.mk 1 0 5 250 [250] 0 5 true] := by
    decide
  have h5 : lateMisfit.final.totalTurnaroundTime = 5 := by decide
  have h6 : lateMisfit.final.completedProcesses.isEmpty = true := by decide
  refine ⟨h1, h2, ?_, ?_, h4, by decide, h5, ?_, ?_⟩
  · show avgTurnaroundTime 2 twoArrivals.final = 5 / 2
    rw [avgTurnaroundTime, h3, h2]
    norm_num
  · rw [averageOverCompleted, h1]
    norm_num [turnaroundSum, Process.ofInput]
  · show avgTurnaroundTime 2 lateMisfit.final = 0
    rw [avgTurnaroundTime, h6]
    rfl
  · rw [averageOverCompleted, h4]
    norm_num [turnaroundSum, Process.ofInput]

set_option maxRecDepth 1000000 in
/-- C14 (tick-based completion), evaluated on the code: in `sideBySide` process 2 is
admitted at clock 0 with lifetime 5 and placed at offset 300; the completion time
recorded for it is `300 + 5 = 305`, not `0 + 5`, and its `completes` entry, the point
where it is released, is logged at clock 305. -/
theorem completion_time_uses_block_start :
    arrivalsOf sideBySide.final.log =
      [(0, Process.ofInput 1 0 5 [300]), (0, Process.ofInput 2 0 5 [300]),
       (310, Process.ofInput 3 310 1 [100])] ∧
    sideBySide.final.log.take 6 =
      [Event.arrives 0 (Process.ofInput 1 0 5 [300]),
       Event.admitted 0
         (Process.mk 1 0 5 300 [300] 0 5 true)
         [MemoryBlock.mk 0 2000 false, MemoryBlock.mk 300 1700 true],
       Event.arrives 0 (Process.ofInput 2 0 5 [300]),
       Event.admitted 0
         (Process.mk 2 0 5 300 [300] 300 305 true)
         [MemoryBlock.mk 0 2000 false, MemoryBlock.mk 300 1700 false,
          MemoryBlock.mk 600 1400 true],
       Event.completes 5
         (Process.mk 1 0 5 300 [300] 0 5 true)
         [MemoryBlock.mk 0 2000 true, MemoryBlock.mk 300 1700 false,
          MemoryBlock.mk 600 1400 true],
       Event.completes 305
         (Process.mk 2 0 5 300 [300] 300 305 true)
         [MemoryBlock.mk 0 5100 true]] := by
  decide

/-- C15 as stated fails: 1100 bytes at page size 100 are `(1100 + 99) / 100 = 11` pages,
that is 1100 bytes, not 12 pages and 1200 bytes, and 900 bytes stay free, not 800. -/
theorem scenarioB_takes_eleven_pages :
    numPages (MemoryManager.new 2000 100) (Process.ofInput 1 0 5 [1100]) = 11 ∧
    requiredBytes (MemoryManager.new 2000 100) (Process.ofInput 1 0 5 [1100]) ≠ 1200 ∧
    freeBytes (allocate (MemoryManager.new 2000 100)
      (Process.ofInput 1 0 5 [1100])).self.memoryMap ≠ 800 := by
  decide

/-- C15 as amended: with memory 2000 and page size 100, a process of 1100 bytes on the
initial state is given 11 pages, 1100 bytes, at offset 0, and exactly 900 bytes are
free afterwards, so that `allocate` of a second process of 1100 bytes returns `false`
and changes nothing. -/
theorem scenarioB_sizes :
    numPages (MemoryManager.new 2000 100) (Process.ofInput 1 0 5 [1100]) = 11 ∧
    requiredBytes (MemoryManager.new 2000 100) (Process.ofInput 1 0 5 [1100]) = 1100 ∧
    (allocate (MemoryManager.new 2000 100) (Process.ofInput 1 0 5 [1100])).result = true ∧
    (allocate (MemoryManager.new 2000 100) (Process.ofInput 1 0 5 [1100])).process.startTime
      = 0 ∧
    freeBytes (allocate (MemoryManager.new 2000 100)
      (Process.ofInput 1 0 5 [1100])).self.memoryMap = 900 ∧
    (allocate (allocate (MemoryManager.new 2000 100) (Process.ofInput 1 0 5 [1100])).self
      (Process.ofInput 2 0 5 [1100])).result = false ∧
    (allocate (allocate (MemoryManager.new 2000 100) (Process.ofInput 1 0 5 [1100])).self
      (Process.ofInput 2 0 5 [1100])).self =
      (allocate (MemoryManager.new 2000 100) (Process.ofInput 1 0 5 [1100])).self := by
  decide

/-- C16 (admit once or drop): in a run of `simulate` the processes of the `arrives`
entries, each standing for one pop of the queue and one call of `allocate` at that tick,
followed by the processes still queued are the input, so no input process is offered
twice; when `allocate` fails the pass only pops the process and logs `arrives` and
`waiting` for it, leaving the manager, `completedProcesses` and the turnaround sum as
they were; a waiting process is an input record; when the input `id`s are distinct, a
waiting process has exactly one `arrives` entry and no `admitted` entry, no `completes`
entry (no `release`), and is not in `completedProcesses`; and `totalTurnaroundTime` is
the sum over the `completes` entries only. -/
theorem admit_once_or_drop (input : List Process) (memorySize pageSize : Int) :
    (arrivalsOf (simulate input memorySize pageSize).final.log).map Prod.snd ++
        (simulate input memorySize pageSize).final.inputQueue = input ∧
    (∀ (clock : Int) (front : Process) (rest : List Process) (st : SimState),
      (allocate st.memoryManager front).result = false →
        arrive clock front rest st =
          { st with
            inputQueue := rest
            log := st.log ++ [Event.arrives clock front, Event.waiting clock front] }) ∧
    (∀ p ∈ waitingOf (simulate input memorySize pageSize).final.log, p ∈ input) ∧
    ((input.map (fun p => p.id)).Nodup →
      ∀ p ∈ waitingOf (simulate input memorySize pageSize).final.log,
        ((arrivalsOf (simulate input memorySize pageSize).final.log).map
            (fun a => a.2.id)).count p.id = 1 ∧
        (∀ q ∈ admittedOf (simulate input memorySize pageSize).final.log, q.id ≠ p.id) ∧
        (∀ q ∈ completedOf (simulate input memorySize pageSize).final.log, q.id ≠ p.id) ∧
        (∀ q ∈ (simulate input memorySize pageSize).final.completedProcesses, q.id ≠ p.id)) ∧
    (simulate input memorySize pageSize).final.totalTurnaroundTime =
      turnaroundSum (completedOf (simulate input memorySize pageSize).final.log) := by
  have h := logInvariant_simulate input memorySize pageSize
  refine ⟨h.queue, arrive_of_false, ?_, ?_, h.total⟩
  · intro p hp
    rw [← h.queue]
    exact List.mem_append_left _ (h.waitingInput p hp)
  · intro hnd p hp
    have hdis := h.disjoint hnd p hp
    refine ⟨?_, hdis, ?_, ?_⟩
    · have hmem := h.outcome p (List.mem_append_right _ hp)
      have hnd' : ((arrivalsOf (simulate input memorySize pageSize).final.log).map
          (fun a => a.2.id)).Nodup := by
        have hq := h.queue
        rw [← hq, List.map_append, List.map_map] at hnd
        exact (List.nodup_append.mp hnd).1
      exact List.count_eq_one_of_mem hnd' hmem
    · intro q hq
      exact hdis q (h.completed q hq)
    · intro q hq
      exact hdis q (h.inFlight q hq)

theorem admit_once_or_drop_witness :
    waitingOf scenarioB.final.log = [Process.ofInput 2 0 5 [1100]] ∧
    ((arrivalsOf scenarioB.final.log).map (fun a => a.2.id)).count
        (Process.ofInput 2 0 5 [1100]).id = 1 ∧
    (Process.mk 1 0 5 1100 [1100] 0 5 true) ∈ admittedOf scenarioB.final.log ∧
    (Process.mk 1 0 5 1100 [1100] 0 5 true).id ≠ (Process.ofInput 2 0 5 [1100]).id :=
  ⟨by decide,
   ((admit_once_or_drop [Process.ofInput 1 0 5 [1100], Process.ofInput 2 0 5 [1100]]
      2000 100).2.2.2.1 (by decide) (Process.ofInput 2 0 5 [1100]) (by decide)).1,
   by decide,
   ((admit_once_or_drop [Process.ofInput 1 0 5 [1100], Process.ofInput 2 0 5 [1100]]
      2000 100).2.2.2.1 (by decide) (Process.ofInput 2 0 5 [1100]) (by decide)).2.1
      (Process.mk 1 0 5 1100 [1100] 0 5 true) (by decide)⟩

/-- C17 (arrival at the right tick): for an input listed in non-decreasing `arrivalTime`
order with all arrival times between 0 and 100000, the `arrives` entries of the log of
`simulate` are the input processes in input order, each logged (and offered to
`allocate`) at the tick equal to its `arrivalTime`, and the queue is empty at the end;
and after the arrival phase of a tick on a sorted queue every process still queued has
an `arrivalTime` greater than that tick. -/
theorem arrivals_at_arrival_time (input : List Process) (memorySize pageSize : Int)
    (hsorted : input.Pairwise (fun a b => a.arrivalTime ≤ b.arrivalTime))
    (hrange : ∀ p ∈ input, 0 ≤ p.arrivalTime ∧ p.arrivalTime ≤ 100000) :
    arrivalsOf (simulate input memorySize pageSize).final.log =
      input.map (fun p => (p.arrivalTime, p)) ∧
    (simulate input memorySize pageSize).final.inputQueue = [] ∧
    (∀ (clock : Int) (queue : List Process) (st : SimState),
      queue.Pairwise (fun a b => a.arrivalTime ≤ b.arrivalTime) →
      ∀ p ∈ (processArrivals clock queue st).inputQueue, clock < p.arrivalTime) := by
  have hinv := arrivalInvariant_simulate input memorySize pageSize hsorted
    (fun p hp => (hrange p hp).1)
  have hexit := mainLoop_exit 100001 (SimState.start input memorySize pageSize)
    (by simp [SimState.start])
  have hempty : (simulate input memorySize pageSize).final.inputQueue = [] := by
    rcases hexit with he | hc
    · exact he
    · cases hq : (simulate input memorySize pageSize).final.inputQueue with
      | nil => rfl
      | cons p rest =>
        exfalso
        have hmem : p ∈ (simulate input memorySize pageSize).final.inputQueue := by
          rw [hq]; exact List.mem_cons_self _ _
        have hah := hinv.ahead p hmem
        have hin : (p.arrivalTime, p) ∈ input.map (fun p => (p.arrivalTime, p)) := by
          rw [← hinv.logQueue]
          exact List.mem_append_right _ (List.mem_map.mpr ⟨p, hmem, rfl⟩)
        obtain ⟨p', hp', heq⟩ := List.mem_map.mp hin
        have hpp : p' = p := congrArg Prod.snd heq
        rw [hpp] at hp'
        have := (hrange p hp').2
        have hc' : (simulate input memorySize pageSize).final.clock > 100000 := hc
        omega
  refine ⟨?_, hempty, processArrivals_queue⟩
  have hlq := hinv.logQueue
  rw [hempty, List.map_nil, List.append_nil] at hlq
  exact hlq

theorem arrivals_at_arrival_time_witness :
    arrivalsOf twoArrivals.final.log =
      [(0, Process.ofInput 1 0 5 [250]), (10, Process.ofInput 2 10 5 [250])] :=
  (arrivals_at_arrival_time [Process.ofInput 1 0 5 [250], Process.ofInput 2 10 5 [250]]
    2000 100 (by decide) (by decide)).1

/-- C18 (bounded run): for every input the main loop of `simulate` is left through its
loop condition or its `break` within 100001 passes (more fuel changes nothing); the
final clock, which counts the passes, is between 0 and 100001; every arrival was logged
at a tick between 0 and 100000 that is at least the process's `arrivalTime`, so a
process with `arrivalTime > 100000` is never popped: it is still in the queue at the
end. -/
theorem simulate_bounded (input : List Process) (memorySize pageSize : Int) :
    ((simulate input memorySize pageSize).final.inputQueue = [] ∨
      (simulate input memorySize pageSize).final.clock > 100000) ∧
    (∀ extra : Nat,
      mainLoop (100001 + extra) (SimState.start input memorySize pageSize) =
        (simulate input memorySize pageSize).final) ∧
    0 ≤ (simulate input memorySize pageSize).final.clock ∧
    (simulate input memorySize pageSize).final.clock ≤ 100001 ∧
    (∀ a ∈ arrivalsOf (simulate input memorySize pageSize).final.log,
      a.2.arrivalTime ≤ a.1 ∧ 0 ≤ a.1 ∧ a.1 ≤ 100000) ∧
    (∀ a ∈ arrivalsOf (simulate input memorySize pageSize).final.log,
      ¬ a.2.arrivalTime > 100000) ∧
    (arrivalsOf (simulate input memorySize pageSize).final.log).map Prod.snd ++
        (simulate input memorySize pageSize).final.inputQueue = input := by
  have hc := clockInvariant_simulate input memorySize pageSize
  refine ⟨mainLoop_exit 100001 _ (by simp [SimState.start]),
    fun extra => mainLoop_fuel 100001 _ extra (by simp [SimState.start]) (by decide),
    hc.1, hc.2.1, hc.2.2, ?_, (logInvariant_simulate input memorySize pageSize).queue⟩
  intro a ha
  have := hc.2.2 a ha
  omega

theorem simulate_bounded_witness :
    (simulate [Process.ofInput 1 0 5 [250], Process.ofInput 2 200000 5 [250]]
        2000 100).final.clock ≤ 100001 ∧
    (arrivalsOf (simulate [Process.ofInput 1 0 5 [250], Process.ofInput 2 200000 5 [250]]
        2000 100).final.log).map Prod.snd ++
      (simulate [Process.ofInput 1 0 5 [250], Process.ofInput 2 200000 5 [250]]
        2000 100).final.inputQueue =
      [Process.ofInput 1 0 5 [250], Process.ofInput 2 200000 5 [250]] :=
  ⟨(simulate_bounded [Process.ofInput 1 0 5 [250], Process.ofInput 2 200000 5 [250]]
      2000 100).2.2.2.1,
   (simulate_bounded [Process.ofInput 1 0 5 [250], Process.ofInput 2 200000 5 [250]]
      2000 100).2.2.2.2.2.2⟩

/-- C20 (conservation of bytes), evaluated on the code: the first `allocate` on
`MemoryManager(2000, 100)`, 250 bytes, appends the remainder of 1700 bytes while the
matched block keeps its 2000 bytes: the block sizes add up to 3700, not to
`memorySize = 2000`. In the reachable state `ovl9` they add up to 6400. -/
theorem bytes_not_conserved_by_first_split :
    Reachable 2000 100
      (allocate (MemoryManager.new 2000 100) (Process.ofInput 1 0 5 [250])).self ∧
    totalBytes (MemoryManager.new 2000 100).memoryMap = 2000 ∧
    totalBytes (allocate (MemoryManager.new 2000 100)
      (Process.ofInput 1 0 5 [250])).self.memoryMap = 3700 ∧
    (allocate (MemoryManager.new 2000 100)
      (Process.ofInput 1 0 5 [250])).self.memorySize = 2000 ∧
    totalBytes ovl9.memoryMap = 6400 := by
  refine ⟨Reachable.afterAllocate _ _ Reachable.init (by decide), by decide, by decide,
    by decide, by decide⟩

end MemManager
